import Mathlib

/-! # Qombat memory subsystem: pool allocator and stack allocator

A shallow embedding of `Engine/Source/Core/Memory/PoolAllocator.hpp`,
`Engine/Source/Core/Memory/StackAllocator.cpp` and the counter of
`Engine/Source/Core/Memory/MemoryManager.hpp`.

* `Size` (`size_t`) values are natural numbers; every arithmetic operation the
  source performs on `Size` is reduced modulo `SIZE_MOD = 2 ^ 64`.
* Process memory is a byte map `Memory`; pointers are addresses, `nullptr` is `0`.
* A function that can end in a fatal assertion, or that the source lets fail,
  returns an `Option`.
-/

namespace QMBT

/-! ## Machine arithmetic -/

/-- Number of values of `Size` (`size_t`, `Aliases.hpp` line 8) on the 64-bit target. -/
def SIZE_MOD : Nat := 2 ^ 64

/-- Addition of two `Size` values. -/
def wadd (a b : Nat) : Nat := (a + b) % SIZE_MOD

/-- Subtraction of two `Size` values (wraps below zero). -/
def wsub (a b : Nat) : Nat := (a % SIZE_MOD + SIZE_MOD - b % SIZE_MOD) % SIZE_MOD

/-- Multiplication of two `Size` values. -/
def wmul (a b : Nat) : Nat := (a * b) % SIZE_MOD

/-! ## Memory -/

/-- Byte-addressed process memory: the byte stored at every address. -/
abbrev Memory : Type := Nat → Nat

/-- Store the bytes `bs` at consecutive addresses starting at `p`. -/
def writeBytes (mem : Memory) (p : Nat) : List Nat → Memory
  | [] => mem
  | b :: bs => writeBytes (fun a => if a = p then b else mem a) (p + 1) bs

/-- Load `n` consecutive bytes starting at `p`. -/
def readBytes (mem : Memory) (p : Nat) : Nat → List Nat
  | 0 => []
  | n + 1 => mem p :: readBytes mem (p + 1) n

/-- Little-endian bytes of `v`, `n` of them. -/
def toLE : Nat → Nat → List Nat
  | 0, _ => []
  | n + 1, v => v % 256 :: toLE n (v / 256)

/-- Value of a little-endian byte string. -/
def ofLE : List Nat → Nat
  | [] => 0
  | b :: bs => b % 256 + 256 * ofLE bs

/-- Size in bytes of a pointer, hence of `struct Chunk` (`PoolAllocator.hpp` lines 10-20). -/
def sizeofChunk : Nat := 8

/-- Load the pointer-sized field stored at address `p` (`chunk->next` read). -/
def readPtr (mem : Memory) (p : Nat) : Nat := ofLE (readBytes mem p sizeofChunk)

/-- Store a pointer-sized field at address `p` (`chunk->next = v`). -/
def writePtr (mem : Memory) (p v : Nat) : Memory := writeBytes mem p (toLE sizeofChunk v)

/-! ## Allocator record -/

/-- Modelled from the spec: `AllocatorData` (`AllocatorData.hpp` is not among the
sources): the record `{ Name, TotalSize, UsedSize }`, built by
`AllocatorData(debugName, totalSize)` with `UsedSize = 0`. -/
structure AllocatorData where
  DebugName : String
  TotalSize : Nat
  UsedSize : Nat

/-- Modelled from the spec: the constructor `AllocatorData(debugName, totalSize)`. -/
def AllocatorData.mk0 (debugName : String) (totalSize : Nat) : AllocatorData :=
  { DebugName := debugName, TotalSize := totalSize, UsedSize := 0 }

/-! ## Stack allocator (`StackAllocator.cpp`) -/

/-- The parts of the stack allocator declared outside the sources:
`Utility::CalculatePaddingWithHeader` (`Utility/Size.hpp`) and the
`AllocationHeader` record (`StackAllocator.hpp`), given by its size and by the
load of its `padding` field from an address. -/
structure StackDeps where
  CalculatePaddingWithHeader : Nat → Nat → Nat → Nat
  sizeofAllocationHeader : Nat
  headerPadding : Memory → Nat → Nat

/-- Fields of `StackAllocator`: the shared record, the region base `m_HeadPtr`
and `m_Offset`. -/
structure StackAllocator where
  m_Data : AllocatorData
  m_HeadPtr : Nat
  m_Offset : Nat

/-- `StackAllocator::Allocate` (lines 26-48). Returns the address (`none` for the
`nullptr` of line 37), the allocator afterwards and the memory afterwards; the
body has no store to memory. -/
def StackAllocator.Allocate (d : StackDeps) (s : StackAllocator) (mem : Memory)
    (size alignment : Nat) : Option Nat × StackAllocator × Memory :=
  let currentAddress := wadd s.m_HeadPtr s.m_Offset
  let padding := d.CalculatePaddingWithHeader currentAddress alignment d.sizeofAllocationHeader % SIZE_MOD
  if wadd (wadd s.m_Offset padding) size > s.m_Data.TotalSize then
    (none, s, mem)
  else
    let offset1 := wadd s.m_Offset padding
    let nextAddress := wadd currentAddress padding
    let offset2 := wadd offset1 size
    (some nextAddress,
      { s with m_Offset := offset2, m_Data := { s.m_Data with UsedSize := offset2 } },
      mem)

/-- `StackAllocator::Deallocate` (lines 50-62). -/
def StackAllocator.Deallocate (d : StackDeps) (s : StackAllocator) (mem : Memory)
    (ptr : Nat) : StackAllocator :=
  let headerAddress := wsub ptr d.sizeofAllocationHeader
  let padding := d.headerPadding mem headerAddress % SIZE_MOD
  let offset := wsub (wsub ptr padding) s.m_HeadPtr
  { s with m_Offset := offset, m_Data := { s.m_Data with UsedSize := offset } }

/-- The padding `Allocate` computes in state `s` for an alignment (line 30). -/
def StackAllocator.paddingFor (d : StackDeps) (s : StackAllocator) (alignment : Nat) : Nat :=
  d.CalculatePaddingWithHeader (wadd s.m_HeadPtr s.m_Offset) alignment d.sizeofAllocationHeader
    % SIZE_MOD

/-- Allocate `A`, allocate `B`, deallocate `B`'s address, deallocate `A`'s address;
`none` when one of the two allocations fails. -/
def StackAllocator.roundTrip (d : StackDeps) (s : StackAllocator) (mem : Memory)
    (sizeA alignA sizeB alignB : Nat) : Option StackAllocator :=
  let rA := s.Allocate d mem sizeA alignA
  match rA.1 with
  | none => none
  | some pA =>
    let rB := rA.2.1.Allocate d rA.2.2 sizeB alignB
    match rB.1 with
    | none => none
    | some pB =>
      let s3 := rB.2.1.Deallocate d rB.2.2 pB
      some (s3.Deallocate d rB.2.2 pA)

/-- Modelled from the spec: `Utility::CalculatePaddingWithHeader` (not among the
sources): the padding after which the address is a multiple of the alignment,
with room for a header in front: the least such padding that is at least the
header size. -/
def calculatePaddingWithHeader (address alignment headerSize : Nat) : Nat :=
  if alignment = 0 then headerSize
  else headerSize + (alignment - (address + headerSize) % alignment) % alignment

/-- Modelled from the spec: an `AllocationHeader` holding the padding count in
one `Size` field. -/
def stdDeps : StackDeps :=
  { CalculatePaddingWithHeader := calculatePaddingWithHeader
    sizeofAllocationHeader := 8
    headerPadding := fun mem p => ofLE (readBytes mem p 8) }

/-- Memory with every byte zero. -/
def zeroMem : Memory := fun _ => 0

/-! ## C runtime and memory manager -/

/-- The process state the allocators act on: the memory, the addresses the
following calls of `malloc` return (an empty queue, or a `0` entry, is a failed
`malloc`), the log of the blocks `malloc` has handed out (base and requested
size, newest first), `MemoryManager::m_TotalAllocatedSize`, the log of the
addresses passed to `free` (newest first), and `MemoryManager::m_Allocators`, the
registered records, each handle standing as the debug name of its record. -/
structure Machine where
  mem : Memory
  mallocQueue : List Nat
  reserved : List (Nat × Nat)
  m_TotalAllocatedSize : Nat
  freed : List Nat
  m_Allocators : List String

/-- A machine with zeroed memory, nothing reserved and the given `malloc` results. -/
def Machine.init (queue : List Nat) : Machine :=
  { mem := zeroMem, mallocQueue := queue, reserved := [], m_TotalAllocatedSize := 0,
    freed := [], m_Allocators := [] }

/-- The call `malloc(size)`: the returned address (`0` is `nullptr`) and the machine afterwards. -/
def Machine.malloc (m : Machine) (size : Nat) : Nat × Machine :=
  match m.mallocQueue with
  | [] => (0, m)
  | b :: rest => (b, { m with mallocQueue := rest, reserved := (b, size) :: m.reserved })

/-- `MemoryManager::UpdateTotalSize` (`MemoryManager.hpp` line 22). -/
def Machine.UpdateTotalSize (m : Machine) (size : Nat) : Machine :=
  { m with m_TotalAllocatedSize := wadd m.m_TotalAllocatedSize size }

/-- The call `free(ptr)`: logged, unless `ptr` is `nullptr`, for which `free` does nothing. -/
def Machine.free (m : Machine) (ptr : Nat) : Machine :=
  if ptr = 0 then m else { m with freed := ptr :: m.freed }

/-- Modelled from the spec: `MemoryManager::Register` (declared in
`MemoryManager.hpp` line 19, its body is not among the sources): adds the handle
of the record to the registry and nothing else. -/
def Machine.Register (m : Machine) (data : AllocatorData) : Machine :=
  { m with m_Allocators := m.m_Allocators ++ [data.DebugName] }

/-- Modelled from the spec: `MemoryManager::UnRegister` (declared in
`MemoryManager.hpp` line 20, its body is not among the sources): removes the
handle of the record if it is present and nothing else. -/
def Machine.UnRegister (m : Machine) (data : AllocatorData) : Machine :=
  { m with m_Allocators := m.m_Allocators.erase data.DebugName }

/-! ## Pool allocator (`PoolAllocator.hpp`) -/

/-- Fields of `PoolAllocator<Object>` (lines 75-80); `m_ObjectSize` is `sizeof(Object)`. -/
structure PoolAllocator where
  m_Data : AllocatorData
  m_ChunksPerBlock : Nat
  m_ObjectSize : Nat
  m_HeadPtr : Nat

/-- Largest value of `int`, the type of the loop counter of `AllocateBlock` (line 173). -/
def INT_MAX : Nat := 2 ^ 31 - 1

/-- The loop of `AllocateBlock` (lines 173-178), `n` iterations from `chunk`:
each stores `chunk + chunkSize` into `chunk->next` and moves to `chunk->next`.
Returns the memory and the last chunk reached. The counter of the source is an
`int` compared with a `Size`: this is the source loop for `n ≤ INT_MAX`, that is
for `chunksPerBlock ≤ 2 ^ 31`, where the counter stays inside `int`. With more
iterations the counter of the source overflows, its behaviour is undefined and
this definition does not describe it; every statement below about the chunks
that a block reservation threads carries the bound `chunksPerBlock ≤ 2 ^ 31`. -/
def chainChunks (mem : Memory) (chunk chunkSize : Nat) : Nat → Memory × Nat
  | 0 => (mem, chunk)
  | n + 1 =>
    let mem1 := writePtr mem chunk (wadd chunk chunkSize)
    chainChunks mem1 (readPtr mem1 chunk) chunkSize n

/-- `PoolAllocator::AllocateBlock` (lines 156-185). `none` when the assertion of
line 159 fails, or when `malloc` returned `nullptr` and the stores of the chain fault.
Returns `blockBegin`, the allocator (its record updated) and the machine. -/
def PoolAllocator.AllocateBlock (a : PoolAllocator) (m : Machine) (chunkSize : Nat) :
    Option (Nat × PoolAllocator × Machine) :=
  if chunkSize > sizeofChunk then
    let blockSize := wmul a.m_ChunksPerBlock chunkSize
    let r := m.malloc blockSize
    let blockBegin := r.1
    if blockBegin = 0 then none
    else
      let data := { a.m_Data with TotalSize := wadd a.m_Data.TotalSize blockSize }
      let m2 := r.2.UpdateTotalSize blockSize
      let c := chainChunks m2.mem blockBegin chunkSize (wsub a.m_ChunksPerBlock 1)
      let mem4 := writePtr c.1 c.2 0
      some (blockBegin, { a with m_Data := data }, { m2 with mem := mem4 })
  else none

/-- The constructor `PoolAllocator(debugName, chunksPerBlock)` (lines 83-96) for an
`Object` of `objectSize` bytes. `none` when an assertion fails. -/
def PoolAllocator.construct (debugName : String) (chunksPerBlock objectSize : Nat)
    (m : Machine) : Option (PoolAllocator × Machine) :=
  if chunksPerBlock > 0 then
    let a0 : PoolAllocator :=
      { m_Data := AllocatorData.mk0 debugName 0, m_ChunksPerBlock := chunksPerBlock,
        m_ObjectSize := objectSize, m_HeadPtr := 0 }
    match a0.AllocateBlock m objectSize with
    | none => none
    | some (h, a1, m1) => some ({ a1 with m_HeadPtr := h }, m1.Register a1.m_Data)
  else none

/-- `PoolAllocator::Allocate` (lines 105-132): the returned address, the allocator
and the machine; `none` when reserving a block fails. -/
def PoolAllocator.Allocate (a : PoolAllocator) (m : Machine) :
    Option (Nat × PoolAllocator × Machine) :=
  let grown : Option (PoolAllocator × Machine) :=
    if a.m_HeadPtr = 0 then
      match a.AllocateBlock m a.m_ObjectSize with
      | none => none
      | some (h, a1, m1) => some ({ a1 with m_HeadPtr := h }, m1)
    else some (a, m)
  match grown with
  | none => none
  | some (a1, m1) =>
    let freeChunk := a1.m_HeadPtr
    some (freeChunk,
      { a1 with
        m_HeadPtr := readPtr m1.mem a1.m_HeadPtr
        m_Data := { a1.m_Data with UsedSize := wadd a1.m_Data.UsedSize a1.m_ObjectSize } },
      m1)

/-- `PoolAllocator::New` (lines 57-62): `Allocate`, then the constructor stores the
object representation `obj` (at most `sizeof(Object)` bytes) at the address. -/
def PoolAllocator.New (a : PoolAllocator) (m : Machine) (obj : List Nat) :
    Option (Nat × PoolAllocator × Machine) :=
  match a.Allocate m with
  | none => none
  | some (address, a1, m1) =>
    some (address, a1, { m1 with mem := writeBytes m1.mem address (obj.take a1.m_ObjectSize) })

/-- `PoolAllocator::Deallocate` (lines 133-147); `none` when `ptr` is `nullptr`
(the store through it faults). -/
def PoolAllocator.Deallocate (a : PoolAllocator) (m : Machine) (ptr : Nat) :
    Option (PoolAllocator × Machine) :=
  if ptr = 0 then none
  else
    some ({ a with
            m_HeadPtr := ptr
            m_Data := { a.m_Data with UsedSize := wsub a.m_Data.UsedSize a.m_ObjectSize } },
          { m with mem := writePtr m.mem ptr a.m_HeadPtr })

/-- `PoolAllocator::Delete` (lines 149-154): the destructor of the object, which
leaves the allocator alone, then `Deallocate`. -/
def PoolAllocator.Delete (a : PoolAllocator) (m : Machine) (ptr : Nat) :
    Option (PoolAllocator × Machine) :=
  a.Deallocate m ptr

/-- `New` once for every object representation of the list, in order; the
addresses returned, in order. -/
def PoolAllocator.newAll : List (List Nat) → PoolAllocator → Machine →
    Option (List Nat × PoolAllocator × Machine)
  | [], a, m => some ([], a, m)
  | obj :: objs, a, m =>
    match a.New m obj with
    | none => none
    | some (p, a1, m1) =>
      match PoolAllocator.newAll objs a1 m1 with
      | none => none
      | some (ps, a2, m2) => some (p :: ps, a2, m2)

/-- `Delete` once for every address of the list, in order. -/
def PoolAllocator.deleteAll : List Nat → PoolAllocator → Machine →
    Option (PoolAllocator × Machine)
  | [], a, m => some (a, m)
  | p :: ps, a, m =>
    match a.Delete m p with
    | none => none
    | some (a1, m1) => PoolAllocator.deleteAll ps a1 m1

/-- The slot addresses `c, c + sz, ...`, `n` of them. -/
def slotsFrom (c sz : Nat) : Nat → List Nat
  | 0 => []
  | n + 1 => c :: slotsFrom (c + sz) sz n

/-- The slots of every block of the list, block by block. -/
def allSlots (k sz : Nat) : List Nat → List Nat
  | [] => []
  | b :: bs => slotsFrom b sz k ++ allSlots k sz bs

/-- The free list of a pool: `fl` are the chunks reached from `head` through the
`next` links, in order, the last link being `nullptr`. -/
def IsFreeList (mem : Memory) : Nat → List Nat → Prop
  | h, [] => h = 0
  | h, x :: xs => h = x ∧ x ≠ 0 ∧ IsFreeList mem (readPtr mem x) xs

/-- Two slots of `sz` bytes that do not overlap. -/
def Sep (sz x y : Nat) : Prop := x + sz ≤ y ∨ y + sz ≤ x

instance (sz : Nat) : DecidableRel (Sep sz) := fun x y => by
  unfold Sep; exact inferInstance

/-- Blocks handed out by `malloc` for `k` chunks of `sz` bytes: none at
`nullptr`, each inside the address space, no two overlapping. -/
def BlocksOK (k sz : Nat) (bs : List Nat) : Prop :=
  (∀ b ∈ bs, 0 < b ∧ b + k * sz ≤ SIZE_MOD) ∧ bs.Pairwise (Sep (k * sz))

instance (k sz : Nat) (bs : List Nat) : Decidable (BlocksOK k sz bs) := by
  unfold BlocksOK; exact inferInstance

/-- Ghost view of a pool: the free chunks in list order, the live slots and the
bases of the blocks reserved so far, oldest first. -/
structure PoolView where
  free : List Nat
  live : List Nat
  blocks : List Nat

/-- The pool invariant under correct use: the configuration passed the two
assertions and has at most `2 ^ 31` chunks in a block, so that the `int` counter
of the loop of `AllocateBlock` does not overflow; the blocks reserved so far and those `malloc` will still hand out are
valid and do not overlap; the `next` links from `m_HeadPtr` run through exactly
the free chunks and end in `nullptr`; the free chunks and the live slots together
are exactly the slots of the reserved blocks; `UsedSize` counts the live slots
and `TotalSize` the reserved blocks. -/
structure PoolInv (a : PoolAllocator) (m : Machine) (v : PoolView) : Prop where
  chunks_pos : 0 < a.m_ChunksPerBlock
  chunks_int : a.m_ChunksPerBlock ≤ 2 ^ 31
  size_ok : sizeofChunk < a.m_ObjectSize
  blocks_ok : BlocksOK a.m_ChunksPerBlock a.m_ObjectSize (v.blocks ++ m.mallocQueue)
  free_list : IsFreeList m.mem a.m_HeadPtr v.free
  slots : (v.free ++ v.live).Perm (allSlots a.m_ChunksPerBlock a.m_ObjectSize v.blocks)
  used : a.m_Data.UsedSize = v.live.length * a.m_ObjectSize
  total : a.m_Data.TotalSize = v.blocks.length * (a.m_ChunksPerBlock * a.m_ObjectSize)

/-! ## Further operations -/

/-- The destructor `~PoolAllocator` (lines 98-103): `UnRegister` of the record,
then `free(m_HeadPtr)`. -/
def PoolAllocator.destroy (a : PoolAllocator) (m : Machine) : Machine :=
  (m.UnRegister a.m_Data).free a.m_HeadPtr

/-- `Allocate` called `n` times in a row; the addresses returned, in order. -/
def PoolAllocator.allocateN : Nat → PoolAllocator → Machine →
    Option (List Nat × PoolAllocator × Machine)
  | 0, a, m => some ([], a, m)
  | n + 1, a, m =>
    match a.Allocate m with
    | none => none
    | some (p, a1, m1) =>
      match PoolAllocator.allocateN n a1 m1 with
      | none => none
      | some (ps, a2, m2) => some (p :: ps, a2, m2)

/-- The states a pool goes through under correct use, each with the list of its
live slots: construction, `Allocate`, `New`, `Deallocate` and `Delete` of an
address that is live, and stores of the owner inside a live slot. -/
inductive PoolAllocator.Reachable (name : String) (k sz : Nat) (m0 : Machine) :
    PoolAllocator → Machine → List Nat → Prop
  | construct {a : PoolAllocator} {m : Machine} :
      PoolAllocator.construct name k sz m0 = some (a, m) →
      PoolAllocator.Reachable name k sz m0 a m []
  | allocate {a a' : PoolAllocator} {m m' : Machine} {live : List Nat} {p : Nat} :
      PoolAllocator.Reachable name k sz m0 a m live → a.Allocate m = some (p, a', m') →
      PoolAllocator.Reachable name k sz m0 a' m' (p :: live)
  | new {a a' : PoolAllocator} {m m' : Machine} {live : List Nat} {p : Nat} (obj : List Nat) :
      PoolAllocator.Reachable name k sz m0 a m live → a.New m obj = some (p, a', m') →
      PoolAllocator.Reachable name k sz m0 a' m' (p :: live)
  | deallocate {a a' : PoolAllocator} {m m' : Machine} {live : List Nat} {p : Nat} :
      PoolAllocator.Reachable name k sz m0 a m live → p ∈ live →
      a.Deallocate m p = some (a', m') →
      PoolAllocator.Reachable name k sz m0 a' m' (live.erase p)
  | delete {a a' : PoolAllocator} {m m' : Machine} {live : List Nat} {p : Nat} :
      PoolAllocator.Reachable name k sz m0 a m live → p ∈ live →
      a.Delete m p = some (a', m') →
      PoolAllocator.Reachable name k sz m0 a' m' (live.erase p)
  | store {a : PoolAllocator} {m : Machine} {live : List Nat} {p : Nat} (off : Nat)
      (bs : List Nat) :
      PoolAllocator.Reachable name k sz m0 a m live → p ∈ live → off + bs.length ≤ sz →
      PoolAllocator.Reachable name k sz m0 a { m with mem := writeBytes m.mem (p + off) bs } live

/-- The literal operator `_GB` (`Aliases.hpp` line 24): `1024 * 1024 * 1024`, an
`int` product inside the `int` range, times `x` in `unsigned long long`. -/
def operator_GB (x : Nat) : Nat := wmul (1024 * 1024 * 1024) x

/-- The constructor `StackAllocator(debugName, totalSize)` (lines 7-18): the record
and the region are made by the member initialisers, before the assertion of
line 10; `none` when that assertion fails. The result of `malloc` is not checked. -/
def StackAllocator.construct (debugName : String) (totalSize : Nat) (m : Machine) :
    Option (StackAllocator × Machine) :=
  let data := AllocatorData.mk0 debugName totalSize
  let r := m.malloc data.TotalSize
  if totalSize < operator_GB 1 ∧ totalSize > 0 then
    some ({ m_Data := data, m_HeadPtr := r.1, m_Offset := 0 }, r.2.Register data)
  else none

/-- The destructor `~StackAllocator` (lines 20-24). -/
def StackAllocator.destroy (s : StackAllocator) (m : Machine) : Machine :=
  (m.UnRegister s.m_Data).free s.m_HeadPtr

/-- One successful allocation of a run: the offset before the call, the address
returned and the size asked for. -/
structure StackAllocation where
  offsetBefore : Nat
  address : Nat
  size : Nat

/-- `Allocate` for every request `(size, alignment)` of the list, in order, with no
`Deallocate` in between: the allocations made, up to the first failure, and the
allocator afterwards. -/
def StackAllocator.allocateAll (d : StackDeps) (mem : Memory) :
    List (Nat × Nat) → StackAllocator → List StackAllocation × StackAllocator
  | [], s => ([], s)
  | (size, alignment) :: rest, s =>
    match (s.Allocate d mem size alignment).1 with
    | none => ([], s)
    | some p =>
      let r := StackAllocator.allocateAll d mem rest (s.Allocate d mem size alignment).2.1
      (⟨s.m_Offset, p, size⟩ :: r.1, r.2)

/-- A run of requests in which every call succeeds, every computed padding is at
least the header size and no sum wraps. -/
def StackAllocator.GoodRun (d : StackDeps) (mem : Memory) :
    List (Nat × Nat) → StackAllocator → Prop
  | [], _ => True
  | (size, alignment) :: rest, s =>
    (s.Allocate d mem size alignment).1 ≠ none ∧
    d.sizeofAllocationHeader ≤ s.paddingFor d alignment ∧
    s.m_Offset + s.paddingFor d alignment + size < SIZE_MOD ∧
    StackAllocator.GoodRun d mem rest (s.Allocate d mem size alignment).2.1

/-- The invariant of a pool built for `k` chunks of `sz` bytes on the machine `m0`,
with the live slots `live`: `PoolInv` for some view with these live slots, whose
blocks are the ones logged as reserved since `m0`. -/
def PoolInvAt (k sz : Nat) (m0 : Machine) (a : PoolAllocator) (m : Machine)
    (live : List Nat) : Prop :=
  ∃ v : PoolView, PoolInv a m v ∧ v.live = live ∧ a.m_ChunksPerBlock = k ∧ a.m_ObjectSize = sz ∧
    m.reserved = v.blocks.reverse.map (fun b => (b, k * sz)) ++ m0.reserved

/-! # Proofs -/

/-! ## Machine arithmetic -/

theorem SIZE_MOD_eq : SIZE_MOD = 18446744073709551616 := by norm_num [SIZE_MOD]

theorem wadd_eq_of_lt {a b : Nat} (h : a + b < SIZE_MOD) : wadd a b = a + b :=
  Nat.mod_eq_of_lt h

theorem wmul_eq_of_lt {a b : Nat} (h : a * b < SIZE_MOD) : wmul a b = a * b :=
  Nat.mod_eq_of_lt h

theorem wsub_eq_of_le {a b : Nat} (hb : b ≤ a) (ha : a < SIZE_MOD) : wsub a b = a - b := by
  unfold wsub
  rw [SIZE_MOD_eq] at *
  omega

theorem wsub_comm_right (p a b : Nat) : wsub (wsub p a) b = wsub (wsub p b) a := by
  unfold wsub
  rw [SIZE_MOD_eq]
  omega

theorem wadd_wadd (a b c : Nat) : wadd (wadd a b) c = (a + b + c) % SIZE_MOD := by
  unfold wadd
  rw [SIZE_MOD_eq]
  omega

/-! ## Stack allocator -/

theorem StackAllocator.Allocate_fail_iff (d : StackDeps) (s : StackAllocator) (mem : Memory)
    (size alignment : Nat) :
    (s.Allocate d mem size alignment).1 = none ↔
      wadd (wadd s.m_Offset (s.paddingFor d alignment)) size > s.m_Data.TotalSize := by
  unfold StackAllocator.Allocate StackAllocator.paddingFor
  by_cases h : wadd (wadd s.m_Offset
      (d.CalculatePaddingWithHeader (wadd s.m_HeadPtr s.m_Offset) alignment
        d.sizeofAllocationHeader % SIZE_MOD)) size > s.m_Data.TotalSize
  · simp [h]
  · simp [h]

/-- C4: when `StackAllocator::Allocate` returns the failure marker, the allocator
(its offset, the record's `UsedSize` and `TotalSize`, every field) and the memory
are what they were before the call. -/
theorem StackAllocator.Allocate_failure_mutates_nothing (d : StackDeps) (s : StackAllocator)
    (mem : Memory) (size alignment : Nat)
    (h : (s.Allocate d mem size alignment).1 = none) :
    (s.Allocate d mem size alignment).2.1 = s ∧
    (s.Allocate d mem size alignment).2.1.m_Offset = s.m_Offset ∧
    (s.Allocate d mem size alignment).2.1.m_Data.UsedSize = s.m_Data.UsedSize ∧
    (s.Allocate d mem size alignment).2.1.m_Data.TotalSize = s.m_Data.TotalSize ∧
    (s.Allocate d mem size alignment).2.2 = mem := by
  have hgt := (StackAllocator.Allocate_fail_iff d s mem size alignment).1 h
  unfold StackAllocator.paddingFor at hgt
  have hs : (s.Allocate d mem size alignment).2.1 = s := by
    unfold StackAllocator.Allocate
    simp [hgt]
  have hm : (s.Allocate d mem size alignment).2.2 = mem := by
    unfold StackAllocator.Allocate
    simp [hgt]
  rw [hs]
  exact ⟨rfl, rfl, rfl, rfl, hm⟩

theorem StackAllocator.Allocate_failure_mutates_nothing_witness :
    (StackAllocator.Allocate stdDeps ⟨AllocatorData.mk0 "stack" 64, 4096, 40⟩ zeroMem 32 8).1
        = none ∧
    (StackAllocator.Allocate stdDeps ⟨AllocatorData.mk0 "stack" 64, 4096, 40⟩ zeroMem 32 8).2.1.m_Offset
        = 40 :=
  ⟨by decide,
   (StackAllocator.Allocate_failure_mutates_nothing stdDeps
      ⟨AllocatorData.mk0 "stack" 64, 4096, 40⟩ zeroMem 32 8 (by decide)).2.1⟩

/-- C5 (the code departs from it): with `totalSize = 1024`, offset `0` and padding `8`,
the request of `2 ^ 64 - 8` bytes has `offset + padding + size = 2 ^ 64 > totalSize`
as natural numbers, yet `StackAllocator::Allocate` returns an address, not the
failure marker, and leaves the offset at `0`: the sum of line 32 wraps to `0`. -/
theorem StackAllocator.Allocate_accepts_wrapped_request :
    StackAllocator.paddingFor stdDeps ⟨AllocatorData.mk0 "stack" 1024, 4096, 0⟩ 8 = 8 ∧
    0 + 8 + (2 ^ 64 - 8) > 1024 ∧
    (StackAllocator.Allocate stdDeps ⟨AllocatorData.mk0 "stack" 1024, 4096, 0⟩ zeroMem
      (2 ^ 64 - 8) 8).1 = some 4104 ∧
    (StackAllocator.Allocate stdDeps ⟨AllocatorData.mk0 "stack" 1024, 4096, 0⟩ zeroMem
      (2 ^ 64 - 8) 8).2.1.m_Offset = 0 := by
  refine ⟨by decide, by decide, by decide, by decide⟩

/-- Where the sum of line 32 does not wrap, `Allocate` fails exactly when
`offset + padding + size > totalSize`; the request that fills the region exactly succeeds. -/
theorem StackAllocator.Allocate_fail_iff_of_no_wrap (d : StackDeps) (s : StackAllocator)
    (mem : Memory) (size alignment : Nat)
    (hw : s.m_Offset + s.paddingFor d alignment + size < SIZE_MOD) :
    (s.Allocate d mem size alignment).1 = none ↔
      s.m_Offset + s.paddingFor d alignment + size > s.m_Data.TotalSize := by
  rw [StackAllocator.Allocate_fail_iff, wadd_wadd, Nat.mod_eq_of_lt hw]

/-- C6: a successful `StackAllocator::Allocate` from offset `o` returns
`base + o + padding` with `padding` the value of `CalculatePaddingWithHeader` at
`base + o`, the alignment and the header size; the new offset is
`o + padding + size` and the record's `UsedSize` is the new offset. The sums are
`Size` sums, and are the exact sums whenever those are below `2 ^ 64`. -/
theorem StackAllocator.Allocate_success (d : StackDeps) (s : StackAllocator) (mem : Memory)
    (size alignment p : Nat) (h : (s.Allocate d mem size alignment).1 = some p) :
    p = wadd (wadd s.m_HeadPtr s.m_Offset)
          (d.CalculatePaddingWithHeader (wadd s.m_HeadPtr s.m_Offset) alignment
            d.sizeofAllocationHeader % SIZE_MOD) ∧
    (s.Allocate d mem size alignment).2.1.m_Offset
      = wadd (wadd s.m_Offset (s.paddingFor d alignment)) size ∧
    (s.Allocate d mem size alignment).2.1.m_Data.UsedSize
      = (s.Allocate d mem size alignment).2.1.m_Offset ∧
    (s.Allocate d mem size alignment).2.1.m_HeadPtr = s.m_HeadPtr ∧
    (s.Allocate d mem size alignment).2.1.m_Data.TotalSize = s.m_Data.TotalSize ∧
    (s.m_HeadPtr + s.m_Offset + s.paddingFor d alignment < SIZE_MOD →
      p = s.m_HeadPtr + s.m_Offset + s.paddingFor d alignment) ∧
    (s.m_Offset + s.paddingFor d alignment + size < SIZE_MOD →
      (s.Allocate d mem size alignment).2.1.m_Offset
        = s.m_Offset + s.paddingFor d alignment + size) := by
  have hne : ¬ (wadd (wadd s.m_Offset (s.paddingFor d alignment)) size > s.m_Data.TotalSize) := by
    intro hgt
    rw [(StackAllocator.Allocate_fail_iff d s mem size alignment).2 hgt] at h
    exact Option.noConfusion h
  unfold StackAllocator.paddingFor at hne
  have hp : p = wadd (wadd s.m_HeadPtr s.m_Offset)
          (d.CalculatePaddingWithHeader (wadd s.m_HeadPtr s.m_Offset) alignment
            d.sizeofAllocationHeader % SIZE_MOD) := by
    unfold StackAllocator.Allocate at h
    simp only [hne, if_false] at h
    exact (Option.some.inj h).symm
  have ho : (s.Allocate d mem size alignment).2.1.m_Offset
      = wadd (wadd s.m_Offset (s.paddingFor d alignment)) size := by
    unfold StackAllocator.Allocate StackAllocator.paddingFor
    simp only [hne, if_false]
  have hu : (s.Allocate d mem size alignment).2.1.m_Data.UsedSize
      = (s.Allocate d mem size alignment).2.1.m_Offset := by
    unfold StackAllocator.Allocate
    simp only [hne, if_false]
  have hb : (s.Allocate d mem size alignment).2.1.m_HeadPtr = s.m_HeadPtr := by
    unfold StackAllocator.Allocate
    simp only [hne, if_false]
  have ht : (s.Allocate d mem size alignment).2.1.m_Data.TotalSize = s.m_Data.TotalSize := by
    unfold StackAllocator.Allocate
    simp only [hne, if_false]
  refine ⟨hp, ho, hu, hb, ht, ?_, ?_⟩
  · intro hlt
    rw [hp, wadd_wadd]
    exact Nat.mod_eq_of_lt hlt
  · intro hlt
    rw [ho, wadd_wadd]
    exact Nat.mod_eq_of_lt hlt

theorem StackAllocator.Allocate_success_witness :
    (StackAllocator.Allocate stdDeps ⟨AllocatorData.mk0 "stack" 1024, 4096, 24⟩ zeroMem 32 16).1
        = some 4128 ∧
    4128 = 4096 + 24 + 8 ∧
    (StackAllocator.Allocate stdDeps ⟨AllocatorData.mk0 "stack" 1024, 4096, 24⟩ zeroMem 32
      16).2.1.m_Offset = 24 + 8 + 32 :=
  ⟨by decide, by decide,
   (StackAllocator.Allocate_success stdDeps ⟨AllocatorData.mk0 "stack" 1024, 4096, 24⟩ zeroMem
      32 16 4128 (by decide)).2.2.2.2.2.2 (by decide)⟩

/-- `StackAllocator::Allocate` has no store: the memory afterwards is the memory before. -/
theorem StackAllocator.Allocate_mem (d : StackDeps) (s : StackAllocator) (mem : Memory)
    (size alignment : Nat) : (s.Allocate d mem size alignment).2.2 = mem := by
  unfold StackAllocator.Allocate
  simp only
  split <;> rfl

/-- C7 (the code departs from it): from a fresh allocator over zeroed memory,
`Allocate(16, 8)` succeeds with padding `8` and returns `4104`, but the header in
front of the returned address is not written: it still reads `0`, and the
`Deallocate(4104)` that follows rewinds the offset to `8` instead of `0`. -/
theorem StackAllocator.Allocate_leaves_header_unwritten :
    StackAllocator.paddingFor stdDeps ⟨AllocatorData.mk0 "stack" 1024, 4096, 0⟩ 8 = 8 ∧
    (StackAllocator.Allocate stdDeps ⟨AllocatorData.mk0 "stack" 1024, 4096, 0⟩ zeroMem 16 8).1
      = some 4104 ∧
    stdDeps.headerPadding
      (StackAllocator.Allocate stdDeps ⟨AllocatorData.mk0 "stack" 1024, 4096, 0⟩ zeroMem 16 8).2.2
      (4104 - stdDeps.sizeofAllocationHeader) = 0 ∧
    (StackAllocator.Deallocate stdDeps
      (StackAllocator.Allocate stdDeps ⟨AllocatorData.mk0 "stack" 1024, 4096, 0⟩ zeroMem 16 8).2.1
      (StackAllocator.Allocate stdDeps ⟨AllocatorData.mk0 "stack" 1024, 4096, 0⟩ zeroMem 16 8).2.2
      4104).m_Offset = 8 := by
  refine ⟨by decide, by decide, by decide, by decide⟩

/-- C8 (the code departs from it): on a fresh allocator of 1024 bytes over zeroed
memory, allocating `A = (16, 8)` and `B = (32, 8)` and deallocating `B` then `A`
leaves the offset and `UsedSize` equal to `8`, not `0`: the headers were never
written, so both rewinds read padding `0`. -/
theorem StackAllocator.roundTrip_does_not_restore_offset :
    (StackAllocator.roundTrip stdDeps ⟨AllocatorData.mk0 "stack" 1024, 4096, 0⟩ zeroMem
      16 8 32 8).map (fun s => (s.m_Offset, s.m_Data.UsedSize)) = some (8, 8) := by
  decide

/-- C9: `StackAllocator::Deallocate(ptr)` sets the offset to `(ptr - base) - padding`
(`Size` arithmetic; the exact difference when `base + padding ≤ ptr`), `padding`
being the value read from the header at `ptr - sizeof(AllocationHeader)`; the
record's `UsedSize` becomes that offset; the base and `TotalSize` stay. -/
theorem StackAllocator.Deallocate_spec (d : StackDeps) (s : StackAllocator) (mem : Memory)
    (ptr : Nat) :
    (s.Deallocate d mem ptr).m_Offset
      = wsub (wsub ptr s.m_HeadPtr)
          (d.headerPadding mem (wsub ptr d.sizeofAllocationHeader) % SIZE_MOD) ∧
    (s.Deallocate d mem ptr).m_Data.UsedSize = (s.Deallocate d mem ptr).m_Offset ∧
    (s.Deallocate d mem ptr).m_HeadPtr = s.m_HeadPtr ∧
    (s.Deallocate d mem ptr).m_Data.TotalSize = s.m_Data.TotalSize ∧
    (ptr < SIZE_MOD →
      s.m_HeadPtr + d.headerPadding mem (wsub ptr d.sizeofAllocationHeader) % SIZE_MOD ≤ ptr →
      (s.Deallocate d mem ptr).m_Offset
        = ptr - s.m_HeadPtr - d.headerPadding mem (wsub ptr d.sizeofAllocationHeader) % SIZE_MOD) := by
  refine ⟨?_, rfl, rfl, rfl, ?_⟩
  · unfold StackAllocator.Deallocate
    exact wsub_comm_right _ _ _
  · intro hp hle
    unfold StackAllocator.Deallocate
    simp only
    rw [wsub_comm_right, wsub_eq_of_le (by omega) hp, wsub_eq_of_le (by omega) (by omega)]

theorem StackAllocator.Deallocate_spec_witness :
    (StackAllocator.Deallocate stdDeps ⟨AllocatorData.mk0 "stack" 1024, 4096, 64⟩
      (writeBytes zeroMem 4120 (toLE 8 8)) 4128).m_Offset = 4128 - 4096 - 8 :=
  (StackAllocator.Deallocate_spec stdDeps ⟨AllocatorData.mk0 "stack" 1024, 4096, 64⟩
      (writeBytes zeroMem 4120 (toLE 8 8)) 4128).2.2.2.2 (by decide) (by decide)

/-! ## Memory -/

theorem writeBytes_outside (bs : List Nat) (mem : Memory) (p a : Nat)
    (h : a < p ∨ p + bs.length ≤ a) : writeBytes mem p bs a = mem a := by
  induction bs generalizing mem p with
  | nil => rfl
  | cons b bs ih =>
    simp only [writeBytes, List.length_cons] at *
    rw [ih _ _ (by omega)]
    have : a ≠ p := by omega
    simp [this]

theorem readBytes_congr (mem mem' : Memory) (n q : Nat)
    (h : ∀ a, q ≤ a → a < q + n → mem' a = mem a) : readBytes mem' q n = readBytes mem q n := by
  induction n generalizing q with
  | zero => rfl
  | succ n ih =>
    simp only [readBytes]
    rw [h q (le_refl _) (by omega), ih (q + 1) (fun a h1 h2 => h a (by omega) (by omega))]

theorem readBytes_writeBytes_same (bs : List Nat) (mem : Memory) (p : Nat) :
    readBytes (writeBytes mem p bs) p bs.length = bs := by
  induction bs generalizing mem p with
  | nil => rfl
  | cons b bs ih =>
    simp only [writeBytes, List.length_cons, readBytes]
    rw [ih, writeBytes_outside _ _ _ _ (Or.inl (Nat.lt_succ_self p))]
    simp

theorem readBytes_length (mem : Memory) (p n : Nat) : (readBytes mem p n).length = n := by
  induction n generalizing p with
  | zero => rfl
  | succ n ih => simp [readBytes, ih]

theorem toLE_length (n v : Nat) : (toLE n v).length = n := by
  induction n generalizing v with
  | zero => rfl
  | succ n ih => simp [toLE, ih]

theorem ofLE_toLE (n v : Nat) : ofLE (toLE n v) = v % 256 ^ n := by
  induction n generalizing v with
  | zero => simp [toLE, ofLE, Nat.mod_one]
  | succ n ih =>
    simp only [toLE, ofLE, ih, Nat.mod_mod]
    rw [pow_succ, mul_comm (256 ^ n) 256, Nat.mod_mul]

theorem readPtr_writePtr_same (mem : Memory) (p v : Nat) (hv : v < SIZE_MOD) :
    readPtr (writePtr mem p v) p = v := by
  unfold readPtr writePtr
  have h := readBytes_writeBytes_same (toLE sizeofChunk v) mem p
  rw [toLE_length] at h
  rw [h, ofLE_toLE]
  apply Nat.mod_eq_of_lt
  rw [SIZE_MOD_eq] at hv
  simpa [sizeofChunk] using hv

theorem readPtr_congr (mem mem' : Memory) (q : Nat)
    (h : ∀ a, q ≤ a → a < q + sizeofChunk → mem' a = mem a) : readPtr mem' q = readPtr mem q := by
  unfold readPtr
  rw [readBytes_congr mem mem' _ _ h]

theorem writePtr_outside (mem : Memory) (p v a : Nat) (h : a < p ∨ p + sizeofChunk ≤ a) :
    writePtr mem p v a = mem a := by
  unfold writePtr
  apply writeBytes_outside
  rw [toLE_length]
  exact h

theorem IsFreeList_congr (mem mem' : Memory) (fl : List Nat) (h : Nat)
    (hfl : IsFreeList mem h fl) (hr : ∀ x ∈ fl, readPtr mem' x = readPtr mem x) :
    IsFreeList mem' h fl := by
  induction fl generalizing h with
  | nil => exact hfl
  | cons x xs ih =>
    obtain ⟨h1, h2, h3⟩ := hfl
    refine ⟨h1, h2, ?_⟩
    rw [hr x (List.mem_cons_self _ _)]
    exact ih _ h3 (fun y hy => hr y (List.mem_cons_of_mem _ hy))

/-! ## Slots and blocks -/

theorem slotsFrom_length (c sz n : Nat) : (slotsFrom c sz n).length = n := by
  induction n generalizing c with
  | zero => rfl
  | succ n ih => simp [slotsFrom, ih]

theorem mem_slotsFrom {c sz n x : Nat} :
    x ∈ slotsFrom c sz n ↔ ∃ i, i < n ∧ x = c + i * sz := by
  induction n generalizing c with
  | zero => simp [slotsFrom]
  | succ n ih =>
    simp only [slotsFrom, List.mem_cons, ih]
    constructor
    · rintro (h | ⟨i, hi, hx⟩)
      · exact ⟨0, by omega, by simp [h]⟩
      · exact ⟨i + 1, by omega, by rw [hx, Nat.add_mul]; omega⟩
    · rintro ⟨i, hi, hx⟩
      cases i with
      | zero => left; simpa using hx
      | succ i => right; exact ⟨i, by omega, by rw [hx, Nat.add_mul]; omega⟩

theorem slotsFrom_eq_map (c sz n : Nat) :
    slotsFrom c sz n = (List.range n).map (fun i => c + i * sz) := by
  induction n generalizing c with
  | zero => rfl
  | succ n ih =>
    rw [slotsFrom, ih, List.range_succ_eq_map, List.map_cons, List.map_map]
    simp only [Nat.zero_mul, Nat.add_zero, List.cons.injEq, true_and]
    apply List.map_congr_left
    intro i _
    simp only [Function.comp, Nat.succ_eq_add_one, Nat.add_mul, Nat.one_mul]
    omega

theorem slotsFrom_pairwise (c sz n : Nat) : (slotsFrom c sz n).Pairwise (Sep sz) := by
  induction n generalizing c with
  | zero => exact List.Pairwise.nil
  | succ n ih =>
    rw [slotsFrom, List.pairwise_cons]
    refine ⟨?_, ih _⟩
    intro y hy
    obtain ⟨i, _, hx⟩ := mem_slotsFrom.1 hy
    left
    have : 0 ≤ i * sz := Nat.zero_le _
    omega

theorem allSlots_append (k sz : Nat) (bs cs : List Nat) :
    allSlots k sz (bs ++ cs) = allSlots k sz bs ++ allSlots k sz cs := by
  induction bs with
  | nil => rfl
  | cons b bs ih => simp [allSlots, ih]

theorem allSlots_length (k sz : Nat) (bs : List Nat) :
    (allSlots k sz bs).length = bs.length * k := by
  induction bs with
  | nil => simp [allSlots]
  | cons b bs ih => simp [allSlots, ih, slotsFrom_length, Nat.add_mul, Nat.add_comm]

theorem mem_allSlots {k sz x : Nat} {bs : List Nat} :
    x ∈ allSlots k sz bs ↔ ∃ b, b ∈ bs ∧ ∃ i, i < k ∧ x = b + i * sz := by
  induction bs with
  | nil => simp [allSlots]
  | cons b bs ih =>
    simp only [allSlots, List.mem_append, mem_slotsFrom, ih, List.mem_cons]
    constructor
    · rintro (h | ⟨b', hb', h⟩)
      · exact ⟨b, Or.inl rfl, h⟩
      · exact ⟨b', Or.inr hb', h⟩
    · rintro ⟨b', (rfl | hb'), h⟩
      · exact Or.inl h
      · exact Or.inr ⟨b', hb', h⟩

/-- A slot of a block lies inside the block. -/
theorem slot_in_block {k sz b i : Nat} (hi : i < k) :
    b ≤ b + i * sz ∧ b + i * sz + sz ≤ b + k * sz := by
  constructor
  · omega
  · have : (i + 1) * sz ≤ k * sz := Nat.mul_le_mul_right _ hi
    rw [Nat.add_mul] at this
    omega

theorem Sep.symm {sz x y : Nat} (h : Sep sz x y) : Sep sz y x := Or.symm h

theorem allSlots_pairwise (k sz : Nat) (bs : List Nat) (h : bs.Pairwise (Sep (k * sz))) :
    (allSlots k sz bs).Pairwise (Sep sz) := by
  induction bs with
  | nil => exact List.Pairwise.nil
  | cons b bs ih =>
    rw [List.pairwise_cons] at h
    rw [allSlots, List.pairwise_append]
    refine ⟨slotsFrom_pairwise _ _ _, ih h.2, ?_⟩
    intro x hx y hy
    obtain ⟨i, hi, rfl⟩ := mem_slotsFrom.1 hx
    obtain ⟨b', hb', j, hj, rfl⟩ := mem_allSlots.1 hy
    have h1 := @slot_in_block _ sz b _ hi
    have h2 := @slot_in_block _ sz b' _ hj
    rcases h.1 b' hb' with h3 | h3
    · left; omega
    · right; omega

theorem BlocksOK.sublist {k sz : Nat} {bs cs : List Nat} (h : BlocksOK k sz bs)
    (hs : cs.Sublist bs) : BlocksOK k sz cs :=
  ⟨fun b hb => h.1 b (hs.subset hb), h.2.sublist hs⟩

/-- Blocks that do not overlap and lie in the address space above `nullptr` have
a total size below `2 ^ 64`. -/
theorem BlocksOK.total_lt {k sz : Nat} {bs : List Nat} (h : BlocksOK k sz bs) :
    bs.length * (k * sz) < SIZE_MOD := by
  have key : ∀ cs : List Nat, BlocksOK k sz cs →
      ∃ U : Finset Nat, U.card = cs.length * (k * sz) ∧
        (∀ x ∈ U, 0 < x ∧ x < SIZE_MOD ∧ ∃ b ∈ cs, b ≤ x ∧ x < b + k * sz) := by
    intro cs
    induction cs with
    | nil => intro _; exact ⟨∅, by simp, by simp⟩
    | cons b cs ih =>
      intro hcs
      obtain ⟨U, hU, hmem⟩ := ih (hcs.sublist (List.sublist_cons_self _ _))
      have hb := hcs.1 b (List.mem_cons_self _ _)
      have hpw := (List.pairwise_cons.1 hcs.2).1
      have hdisj : Disjoint (Finset.Ico b (b + k * sz)) U := by
        rw [Finset.disjoint_left]
        intro x hx hxU
        obtain ⟨_, _, b', hb', h1, h2⟩ := hmem x hxU
        rw [Finset.mem_Ico] at hx
        rcases hpw b' hb' with h3 | h3 <;> omega
      refine ⟨Finset.Ico b (b + k * sz) ∪ U, ?_, ?_⟩
      · rw [Finset.card_union_of_disjoint hdisj, hU, Nat.card_Ico, List.length_cons]
        rw [Nat.add_mul]
        omega
      · intro x hx
        rw [Finset.mem_union, Finset.mem_Ico] at hx
        rcases hx with hx | hx
        · exact ⟨by omega, by omega, b, List.mem_cons_self _ _, hx.1, hx.2⟩
        · obtain ⟨h1, h2, b', hb', h3⟩ := hmem x hx
          exact ⟨h1, h2, b', List.mem_cons_of_mem _ hb', h3⟩
  obtain ⟨U, hU, hmem⟩ := key bs h
  have hsub : U ⊆ Finset.Ico 1 SIZE_MOD := by
    intro x hx
    obtain ⟨h1, h2, _⟩ := hmem x hx
    rw [Finset.mem_Ico]
    omega
  have := Finset.card_le_card hsub
  rw [hU, Nat.card_Ico] at this
  have : 0 < SIZE_MOD := by rw [SIZE_MOD_eq]; omega
  omega

/-! ## Block reservation -/

theorem IsFreeList_nil (mem : Memory) (h : Nat) : IsFreeList mem h [] ↔ h = 0 := Iff.rfl

theorem IsFreeList_cons (mem : Memory) (h x : Nat) (xs : List Nat) :
    IsFreeList mem h (x :: xs) ↔ h = x ∧ x ≠ 0 ∧ IsFreeList mem (readPtr mem x) xs := Iff.rfl

theorem slotsFrom_succ (c sz n : Nat) :
    slotsFrom c sz (n + 1) = c :: slotsFrom (c + sz) sz n := rfl

theorem chainChunks_zero (mem : Memory) (c sz : Nat) : chainChunks mem c sz 0 = (mem, c) := rfl

theorem chainChunks_succ (mem : Memory) (c sz n : Nat) :
    chainChunks mem c sz (n + 1)
      = chainChunks (writePtr mem c (wadd c sz)) (readPtr (writePtr mem c (wadd c sz)) c) sz n :=
  rfl

/-- The loop of `AllocateBlock` followed by the store of the terminal link threads
the `n + 1` chunks from `c` into a list, and stores nothing outside them. -/
theorem chainChunks_spec (n : Nat) (mem : Memory) (c sz : Nat) (hsz : sizeofChunk ≤ sz)
    (hc : 0 < c) (hend : c + (n + 1) * sz ≤ SIZE_MOD) :
    (chainChunks mem c sz n).2 = c + n * sz ∧
    IsFreeList (writePtr (chainChunks mem c sz n).1 (chainChunks mem c sz n).2 0) c
      (slotsFrom c sz (n + 1)) ∧
    ∀ a, a < c ∨ c + (n + 1) * sz ≤ a →
      writePtr (chainChunks mem c sz n).1 (chainChunks mem c sz n).2 0 a = mem a := by
  have h8 : 8 ≤ sz := hsz
  have h0 : (0 : Nat) < SIZE_MOD := by rw [SIZE_MOD_eq]; omega
  induction n generalizing mem c with
  | zero =>
    rw [chainChunks_zero, slotsFrom_succ, IsFreeList_cons, slotsFrom, IsFreeList_nil]
    refine ⟨by simp, ⟨rfl, by omega, readPtr_writePtr_same _ _ _ h0⟩, ?_⟩
    intro a ha
    apply writePtr_outside
    simp only [sizeofChunk]
    omega
  | succ n ih =>
    have hexp : c + (n + 1 + 1) * sz = c + sz + (n + 1) * sz := by
      rw [Nat.add_mul (n + 1) 1 sz]; omega
    have hlt : c + sz < SIZE_MOD := by
      have : 0 < (n + 1) * sz := Nat.mul_pos (Nat.succ_pos n) (by omega)
      omega
    have hnext : readPtr (writePtr mem c (wadd c sz)) c = c + sz := by
      rw [wadd_eq_of_lt hlt, readPtr_writePtr_same _ _ _ hlt]
    rw [chainChunks_succ, hnext]
    obtain ⟨h1, h2, h3⟩ := ih (writePtr mem c (wadd c sz)) (c + sz) (by omega) (by omega)
    rw [slotsFrom_succ, IsFreeList_cons]
    refine ⟨?_, ⟨rfl, by omega, ?_⟩, ?_⟩
    · rw [h1, Nat.add_mul n 1 sz]; omega
    · have hr : readPtr (writePtr (chainChunks (writePtr mem c (wadd c sz)) (c + sz) sz n).1
          (chainChunks (writePtr mem c (wadd c sz)) (c + sz) sz n).2 0) c = c + sz := by
        refine (readPtr_congr _ _ _ ?_).trans hnext
        intro a ha1 ha2
        simp only [sizeofChunk] at ha2
        exact h3 a (Or.inl (by omega))
      exact hr.symm ▸ h2
    · intro a ha
      rw [h3 a (by omega)]
      apply writePtr_outside
      simp only [sizeofChunk]
      omega

/-- What a successful block reservation does, with at most `2 ^ 31` chunks in the
block: the loop makes at most `INT_MAX` iterations, so its `int` counter does not
overflow. -/
theorem PoolAllocator.AllocateBlock_spec (a : PoolAllocator) (m : Machine) (b : Nat)
    (rest : List Nat) (hk : 0 < a.m_ChunksPerBlock) (hint : a.m_ChunksPerBlock ≤ 2 ^ 31)
    (hsz : sizeofChunk < a.m_ObjectSize)
    (hq : m.mallocQueue = b :: rest) (hb : 0 < b)
    (hend : b + a.m_ChunksPerBlock * a.m_ObjectSize ≤ SIZE_MOD)
    (htot : a.m_Data.TotalSize + a.m_ChunksPerBlock * a.m_ObjectSize < SIZE_MOD) :
    ∃ m' : Machine,
      a.AllocateBlock m a.m_ObjectSize
        = some (b, { a with m_Data := { a.m_Data with
              TotalSize := a.m_Data.TotalSize + a.m_ChunksPerBlock * a.m_ObjectSize } }, m') ∧
      m'.mallocQueue = rest ∧
      m'.reserved = (b, a.m_ChunksPerBlock * a.m_ObjectSize) :: m.reserved ∧
      m'.m_TotalAllocatedSize
        = wadd m.m_TotalAllocatedSize (a.m_ChunksPerBlock * a.m_ObjectSize) ∧
      IsFreeList m'.mem b (slotsFrom b a.m_ObjectSize a.m_ChunksPerBlock) ∧
      (∀ x, x < b ∨ b + a.m_ChunksPerBlock * a.m_ObjectSize ≤ x → m'.mem x = m.mem x) ∧
      wsub a.m_ChunksPerBlock 1 ≤ INT_MAX := by
  have hsz0 : 0 < a.m_ObjectSize := Nat.lt_of_le_of_lt (Nat.zero_le _) hsz
  have hmul : a.m_ChunksPerBlock * a.m_ObjectSize < SIZE_MOD := by omega
  have hkle : a.m_ChunksPerBlock ≤ a.m_ChunksPerBlock * a.m_ObjectSize :=
    Nat.le_mul_of_pos_right _ hsz0
  have hk1 : wsub a.m_ChunksPerBlock 1 = a.m_ChunksPerBlock - 1 :=
    wsub_eq_of_le hk (by omega)
  obtain ⟨n, hn⟩ : ∃ n, a.m_ChunksPerBlock = n + 1 := ⟨a.m_ChunksPerBlock - 1, by omega⟩
  have hn1 : a.m_ChunksPerBlock - 1 = n := by omega
  have hmalloc : m.malloc (a.m_ChunksPerBlock * a.m_ObjectSize)
      = (b, { m with mallocQueue := rest,
                     reserved := (b, a.m_ChunksPerBlock * a.m_ObjectSize) :: m.reserved }) := by
    unfold Machine.malloc
    rw [hq]
  obtain ⟨h1, h2, h3⟩ := chainChunks_spec n m.mem b a.m_ObjectSize (le_of_lt hsz) hb
    (by rw [← hn]; exact hend)
  refine ⟨{ mem := writePtr (chainChunks m.mem b a.m_ObjectSize n).1
                    (chainChunks m.mem b a.m_ObjectSize n).2 0
            mallocQueue := rest
            reserved := (b, a.m_ChunksPerBlock * a.m_ObjectSize) :: m.reserved
            m_TotalAllocatedSize :=
              wadd m.m_TotalAllocatedSize (a.m_ChunksPerBlock * a.m_ObjectSize)
            freed := m.freed
            m_Allocators := m.m_Allocators }, ?_, rfl, rfl, rfl,
          ?_, ?_, ?_⟩
  · unfold PoolAllocator.AllocateBlock
    rw [if_pos hsz]
    simp only [wmul_eq_of_lt hmul, hmalloc, hk1, hn1, wadd_eq_of_lt htot, Machine.UpdateTotalSize]
    rw [if_neg (by omega)]
  · rw [hn]; exact h2
  · rw [hn]; exact h3
  · rw [hk1]
    unfold INT_MAX
    omega

/-! ## The pool invariant -/

theorem Sep.ne {sz x y : Nat} (hsz : 0 < sz) (h : Sep sz x y) : x ≠ y := by
  rcases h with h | h <;> omega

theorem pairwise_sep_perm {sz : Nat} {l l' : List Nat} (hp : l.Perm l')
    (h : l'.Pairwise (Sep sz)) : l.Pairwise (Sep sz) :=
  (hp.pairwise_iff (fun hxy => Sep.symm hxy)).2 h

theorem pairwise_sep_nodup {sz : Nat} (hsz : 0 < sz) {l : List Nat}
    (h : l.Pairwise (Sep sz)) : l.Nodup :=
  h.imp (fun hxy => Sep.ne hsz hxy)

theorem PoolInv.size_pos {a : PoolAllocator} {m : Machine} {v : PoolView}
    (h : PoolInv a m v) : 0 < a.m_ObjectSize :=
  Nat.lt_of_le_of_lt (Nat.zero_le _) h.size_ok

theorem PoolInv.blocks_cur {a : PoolAllocator} {m : Machine} {v : PoolView}
    (h : PoolInv a m v) : BlocksOK a.m_ChunksPerBlock a.m_ObjectSize v.blocks :=
  h.blocks_ok.sublist (List.sublist_append_left _ _)

theorem PoolInv.pairwise {a : PoolAllocator} {m : Machine} {v : PoolView}
    (h : PoolInv a m v) : (v.free ++ v.live).Pairwise (Sep a.m_ObjectSize) :=
  pairwise_sep_perm h.slots (allSlots_pairwise _ _ _ h.blocks_cur.2)

/-- Every slot of the pool, free or live, is above `nullptr`, inside the address
space and inside a reserved block. -/
theorem PoolInv.slot_bounds {a : PoolAllocator} {m : Machine} {v : PoolView}
    (h : PoolInv a m v) {x : Nat} (hx : x ∈ v.free ++ v.live) :
    0 < x ∧ x + a.m_ObjectSize ≤ SIZE_MOD ∧
      ∃ b ∈ v.blocks, b ≤ x ∧ x + a.m_ObjectSize ≤ b + a.m_ChunksPerBlock * a.m_ObjectSize := by
  obtain ⟨b, hb, i, hi, rfl⟩ := mem_allSlots.1 (h.slots.subset hx)
  have h1 := h.blocks_cur.1 b hb
  have h2 := @slot_in_block _ a.m_ObjectSize b _ hi
  exact ⟨by omega, by omega, b, hb, h2.1, h2.2⟩

theorem PoolInv.count {a : PoolAllocator} {m : Machine} {v : PoolView}
    (h : PoolInv a m v) : v.free.length + v.live.length = v.blocks.length * a.m_ChunksPerBlock := by
  rw [← List.length_append, h.slots.length_eq, allSlots_length]

/-- The bytes of all live objects fit below `2 ^ 64`, with room for every free slot. -/
theorem PoolInv.used_bound {a : PoolAllocator} {m : Machine} {v : PoolView}
    (h : PoolInv a m v) :
    (v.free.length + v.live.length) * a.m_ObjectSize < SIZE_MOD := by
  have := h.blocks_cur.total_lt
  rw [h.count, Nat.mul_assoc]
  exact this

theorem PoolInv.head_lt {a : PoolAllocator} {m : Machine} {v : PoolView}
    (h : PoolInv a m v) : a.m_HeadPtr < SIZE_MOD := by
  have hfl := h.free_list
  cases hv : v.free with
  | nil =>
    rw [hv, IsFreeList_nil] at hfl
    rw [hfl, SIZE_MOD_eq]; omega
  | cons x xs =>
    rw [hv, IsFreeList_cons] at hfl
    have := h.slot_bounds (x := x) (by rw [hv]; simp)
    have := h.size_pos
    omega

theorem PoolInv.free_sep_live {a : PoolAllocator} {m : Machine} {v : PoolView}
    (h : PoolInv a m v) {x p : Nat} (hx : x ∈ v.free) (hp : p ∈ v.live) :
    Sep a.m_ObjectSize x p :=
  (List.pairwise_append.1 h.pairwise).2.2 x hx p hp

/-- A store inside a live slot leaves the invariant in place. -/
theorem PoolInv.store {a : PoolAllocator} {m : Machine} {v : PoolView} (h : PoolInv a m v)
    {p : Nat} (hp : p ∈ v.live) (bs : List Nat) (hbs : bs.length ≤ a.m_ObjectSize) :
    PoolInv a { m with mem := writeBytes m.mem p bs } v := by
  refine ⟨h.chunks_pos, h.chunks_int, h.size_ok, h.blocks_ok, ?_, h.slots, h.used, h.total⟩
  apply IsFreeList_congr m.mem _ _ _ h.free_list
  intro x hx
  apply readPtr_congr
  intro y hy1 hy2
  apply writeBytes_outside
  have hs := h.size_ok
  simp only [sizeofChunk] at hs hy2
  rcases h.free_sep_live hx hp with h1 | h1 <;> omega

/-- `Allocate` on a pool whose free list is not empty pops its head. -/
theorem PoolAllocator.Allocate_pop {a : PoolAllocator} {m : Machine} {v : PoolView}
    (h : PoolInv a m v) {x : Nat} {fl : List Nat} (hv : v.free = x :: fl) :
    ∃ a' : PoolAllocator, a.Allocate m = some (x, a', m) ∧
      PoolInv a' m ⟨fl, x :: v.live, v.blocks⟩ ∧
      a'.m_ChunksPerBlock = a.m_ChunksPerBlock ∧ a'.m_ObjectSize = a.m_ObjectSize ∧
      a'.m_Data.TotalSize = a.m_Data.TotalSize := by
  have hfl := h.free_list
  rw [hv, IsFreeList_cons] at hfl
  obtain ⟨hhead, hx0, htail⟩ := hfl
  have hb := h.used_bound
  rw [hv, List.length_cons, Nat.add_mul, Nat.add_mul] at hb
  have hused : wadd a.m_Data.UsedSize a.m_ObjectSize = (v.live.length + 1) * a.m_ObjectSize := by
    rw [h.used, wadd_eq_of_lt (by omega), Nat.add_mul]; omega
  refine ⟨{ a with
            m_HeadPtr := readPtr m.mem a.m_HeadPtr
            m_Data := { a.m_Data with UsedSize := wadd a.m_Data.UsedSize a.m_ObjectSize } },
          ?_, ?_, rfl, rfl, rfl⟩
  · unfold PoolAllocator.Allocate
    rw [if_neg (by rw [hhead]; exact hx0)]
    simp only [hhead]
  · refine ⟨h.chunks_pos, h.chunks_int, h.size_ok, h.blocks_ok, ?_, ?_, ?_, h.total⟩
    · show IsFreeList m.mem (readPtr m.mem a.m_HeadPtr) fl
      rw [hhead]; exact htail
    · show (fl ++ x :: v.live).Perm _
      refine List.Perm.trans List.perm_middle ?_
      have := h.slots
      rw [hv] at this
      exact this
    · show wadd a.m_Data.UsedSize a.m_ObjectSize = (x :: v.live).length * a.m_ObjectSize
      rw [hused, List.length_cons]

/-- `Deallocate`/`Delete` of a live slot pushes it onto the free list. -/
theorem PoolAllocator.Delete_spec {a : PoolAllocator} {m : Machine} {v : PoolView}
    (h : PoolInv a m v) {p : Nat} (hp : p ∈ v.live) :
    ∃ (a' : PoolAllocator) (m' : Machine), a.Delete m p = some (a', m') ∧
      PoolInv a' m' ⟨p :: v.free, v.live.erase p, v.blocks⟩ ∧
      a'.m_ChunksPerBlock = a.m_ChunksPerBlock ∧ a'.m_ObjectSize = a.m_ObjectSize ∧
      a'.m_Data.TotalSize = a.m_Data.TotalSize ∧
      m'.mallocQueue = m.mallocQueue ∧ m'.reserved = m.reserved := by
  have hpb := h.slot_bounds (x := p) (List.mem_append_right _ hp)
  have hp0 : p ≠ 0 := by omega
  have hlen : 0 < v.live.length := List.length_pos_of_mem hp
  have hb := h.used_bound
  rw [Nat.add_mul] at hb
  have hused : wsub a.m_Data.UsedSize a.m_ObjectSize
      = (v.live.erase p).length * a.m_ObjectSize := by
    rw [h.used, List.length_erase_of_mem hp]
    have h1 : a.m_ObjectSize ≤ v.live.length * a.m_ObjectSize := Nat.le_mul_of_pos_left _ hlen
    rw [wsub_eq_of_le h1 (by omega), Nat.sub_mul, Nat.one_mul]
  refine ⟨{ a with
            m_HeadPtr := p
            m_Data := { a.m_Data with UsedSize := wsub a.m_Data.UsedSize a.m_ObjectSize } },
          { m with mem := writePtr m.mem p a.m_HeadPtr }, ?_, ?_, rfl, rfl, rfl, rfl, rfl⟩
  · unfold PoolAllocator.Delete PoolAllocator.Deallocate
    rw [if_neg hp0]
  · refine ⟨h.chunks_pos, h.chunks_int, h.size_ok, h.blocks_ok, ?_, ?_, hused, h.total⟩
    · show IsFreeList (writePtr m.mem p a.m_HeadPtr) p (p :: v.free)
      rw [IsFreeList_cons, readPtr_writePtr_same _ _ _ h.head_lt]
      refine ⟨rfl, hp0, ?_⟩
      apply IsFreeList_congr m.mem _ _ _ h.free_list
      intro x hx
      apply readPtr_congr
      intro y hy1 hy2
      apply writePtr_outside
      have hs := h.size_ok
      simp only [sizeofChunk] at hs hy2 ⊢
      rcases h.free_sep_live hx hp with h1 | h1 <;> omega
    · show (p :: v.free ++ v.live.erase p).Perm _
      refine List.Perm.trans ?_ h.slots
      rw [List.cons_append]
      refine List.Perm.trans List.perm_middle.symm ?_
      exact List.Perm.append_left _ (List.perm_cons_erase hp).symm

/-- `Allocate` on a pool whose free list is empty reserves the block `malloc`
hands out, threads it and returns its first slot. -/
theorem PoolAllocator.Allocate_grow {a : PoolAllocator} {m : Machine} {v : PoolView}
    (h : PoolInv a m v) (hv : v.free = []) {b : Nat} {rest : List Nat}
    (hq : m.mallocQueue = b :: rest) :
    ∃ (a' : PoolAllocator) (m' : Machine), a.Allocate m = some (b, a', m') ∧
      PoolInv a' m' ⟨slotsFrom (b + a.m_ObjectSize) a.m_ObjectSize (a.m_ChunksPerBlock - 1),
        b :: v.live, v.blocks ++ [b]⟩ ∧
      a'.m_ChunksPerBlock = a.m_ChunksPerBlock ∧ a'.m_ObjectSize = a.m_ObjectSize ∧
      a'.m_Data.TotalSize = a.m_Data.TotalSize + a.m_ChunksPerBlock * a.m_ObjectSize ∧
      m'.mallocQueue = rest ∧
      m'.reserved = (b, a.m_ChunksPerBlock * a.m_ObjectSize) :: m.reserved ∧
      ∀ x, x < b ∨ b + a.m_ChunksPerBlock * a.m_ObjectSize ≤ x → m'.mem x = m.mem x := by
  have hfl := h.free_list
  rw [hv, IsFreeList_nil] at hfl
  have hok := h.blocks_ok
  rw [hq] at hok
  have hbok := hok.1 b (by simp)
  have hok1 : BlocksOK a.m_ChunksPerBlock a.m_ObjectSize (v.blocks ++ [b]) :=
    hok.sublist (List.Sublist.append_left (List.cons_sublist_cons.2 (List.nil_sublist _)) _)
  have htot1 := hok1.total_lt
  rw [List.length_append, List.length_singleton, Nat.add_mul, Nat.one_mul] at htot1
  have htot : a.m_Data.TotalSize + a.m_ChunksPerBlock * a.m_ObjectSize < SIZE_MOD := by
    rw [h.total]; exact htot1
  obtain ⟨m', hab, hq', hres, _, hlist, hframe, _⟩ :=
    PoolAllocator.AllocateBlock_spec a m b rest h.chunks_pos h.chunks_int h.size_ok hq hbok.1
      hbok.2 htot
  obtain ⟨n, hn⟩ : ∃ n, a.m_ChunksPerBlock = n + 1 :=
    ⟨a.m_ChunksPerBlock - 1, by have := h.chunks_pos; omega⟩
  have hn1 : a.m_ChunksPerBlock - 1 = n := by omega
  rw [hn, slotsFrom_succ, IsFreeList_cons] at hlist
  have hcount := h.count
  rw [hv, List.length_nil, Nat.zero_add] at hcount
  have hused : wadd a.m_Data.UsedSize a.m_ObjectSize = (v.live.length + 1) * a.m_ObjectSize := by
    have hle : (v.live.length + 1) * a.m_ObjectSize
        ≤ v.blocks.length * (a.m_ChunksPerBlock * a.m_ObjectSize)
          + a.m_ChunksPerBlock * a.m_ObjectSize := by
      rw [hcount, Nat.add_mul, Nat.one_mul, Nat.mul_assoc]
      have : a.m_ObjectSize ≤ a.m_ChunksPerBlock * a.m_ObjectSize :=
        Nat.le_mul_of_pos_left _ h.chunks_pos
      omega
    rw [h.used, wadd_eq_of_lt (by rw [Nat.add_mul, Nat.one_mul] at hle; omega), Nat.add_mul]
    omega
  refine ⟨{ a with
            m_HeadPtr := readPtr m'.mem b
            m_Data := { a.m_Data with
              TotalSize := a.m_Data.TotalSize + a.m_ChunksPerBlock * a.m_ObjectSize
              UsedSize := wadd a.m_Data.UsedSize a.m_ObjectSize } },
          m', ?_, ?_, rfl, rfl, rfl, hq', hres, hframe⟩
  · unfold PoolAllocator.Allocate
    rw [if_pos hfl, hab]
  · refine ⟨h.chunks_pos, h.chunks_int, h.size_ok, ?_, ?_, ?_, ?_, ?_⟩
    · show BlocksOK _ _ ((v.blocks ++ [b]) ++ m'.mallocQueue)
      rw [hq', List.append_assoc]
      exact hok
    · show IsFreeList m'.mem (readPtr m'.mem b) (slotsFrom (b + a.m_ObjectSize) a.m_ObjectSize
        (a.m_ChunksPerBlock - 1))
      rw [hn1]
      exact hlist.2.2
    · show (slotsFrom (b + a.m_ObjectSize) a.m_ObjectSize (a.m_ChunksPerBlock - 1)
          ++ b :: v.live).Perm
        (allSlots a.m_ChunksPerBlock a.m_ObjectSize (v.blocks ++ [b]))
      have hl := h.slots
      rw [hv, List.nil_append] at hl
      rw [allSlots_append, hn1]
      refine List.Perm.trans List.perm_middle ?_
      have e : allSlots a.m_ChunksPerBlock a.m_ObjectSize [b]
          = b :: slotsFrom (b + a.m_ObjectSize) a.m_ObjectSize n := by
        rw [allSlots, allSlots, List.append_nil, hn, slotsFrom_succ]
      rw [e, ← List.cons_append]
      exact List.Perm.trans List.perm_append_comm (List.Perm.append_right _ hl)
    · show wadd a.m_Data.UsedSize a.m_ObjectSize = (b :: v.live).length * a.m_ObjectSize
      rw [hused, List.length_cons]
    · show a.m_Data.TotalSize + a.m_ChunksPerBlock * a.m_ObjectSize
        = (v.blocks ++ [b]).length * (a.m_ChunksPerBlock * a.m_ObjectSize)
      rw [h.total, List.length_append, List.length_singleton, Nat.add_mul, Nat.one_mul]

/-- Construction with a positive chunk count of at most `2 ^ 31`, an element
larger than a link and a `malloc` that hands out a valid block. -/
theorem PoolAllocator.construct_spec (name : String) (k sz : Nat) (m : Machine) (b : Nat)
    (rest : List Nat) (hk : 0 < k) (hint : k ≤ 2 ^ 31) (hsz : sizeofChunk < sz)
    (hq : m.mallocQueue = b :: rest) (hok : BlocksOK k sz (b :: rest)) :
    ∃ (a : PoolAllocator) (m' : Machine), PoolAllocator.construct name k sz m = some (a, m') ∧
      PoolInv a m' ⟨slotsFrom b sz k, [], [b]⟩ ∧
      a.m_ChunksPerBlock = k ∧ a.m_ObjectSize = sz ∧ a.m_HeadPtr = b ∧
      a.m_Data.TotalSize = k * sz ∧ a.m_Data.UsedSize = 0 ∧
      m'.mallocQueue = rest ∧ m'.reserved = (b, k * sz) :: m.reserved ∧
      ∀ x, x < b ∨ b + k * sz ≤ x → m'.mem x = m.mem x := by
  have hbok := hok.1 b (by simp)
  obtain ⟨m', hab, hq', hres, _, hlist, hframe, _⟩ :=
    PoolAllocator.AllocateBlock_spec
      { m_Data := AllocatorData.mk0 name 0, m_ChunksPerBlock := k, m_ObjectSize := sz,
        m_HeadPtr := 0 } m b rest hk hint hsz hq hbok.1 hbok.2
      (by show 0 + k * sz < SIZE_MOD; omega)
  refine ⟨{ m_Data := { DebugName := name, TotalSize := 0 + k * sz, UsedSize := 0 },
            m_ChunksPerBlock := k, m_ObjectSize := sz, m_HeadPtr := b },
          m'.Register { DebugName := name, TotalSize := 0 + k * sz, UsedSize := 0 }, ?_, ?_,
          rfl, rfl, rfl, Nat.zero_add _, rfl, hq', hres, hframe⟩
  · unfold PoolAllocator.construct
    rw [if_pos hk]
    dsimp only
    rw [hab]
    rfl
  · refine ⟨hk, hint, hsz, ?_, hlist, ?_, ?_, ?_⟩
    · show BlocksOK k sz ([b] ++ m'.mallocQueue)
      rw [hq']; exact hok
    · show (slotsFrom b sz k ++ []).Perm (allSlots k sz [b])
      rw [allSlots, allSlots]
    · show 0 = ([] : List Nat).length * sz
      simp
    · show 0 + k * sz = [b].length * (k * sz)
      simp

/-- `Allocate` on a pool that has a free chunk or can still reserve a block:
it hands out a slot that was not live and stores nothing into a live slot. -/
theorem PoolAllocator.Allocate_spec {a : PoolAllocator} {m : Machine} {v : PoolView}
    (h : PoolInv a m v)
    (hres : 0 < v.free.length + m.mallocQueue.length * a.m_ChunksPerBlock) :
    ∃ (p : Nat) (a' : PoolAllocator) (m' : Machine) (v' : PoolView),
      a.Allocate m = some (p, a', m') ∧ PoolInv a' m' v' ∧ v'.live = p :: v.live ∧
      v'.free.length + m'.mallocQueue.length * a.m_ChunksPerBlock + 1
        = v.free.length + m.mallocQueue.length * a.m_ChunksPerBlock ∧
      a'.m_ChunksPerBlock = a.m_ChunksPerBlock ∧ a'.m_ObjectSize = a.m_ObjectSize ∧
      ∀ q ∈ v.live, ∀ y, q ≤ y → y < q + a.m_ObjectSize → m'.mem y = m.mem y := by
  cases hv : v.free with
  | cons x fl =>
    obtain ⟨a', h1, h2, h3, h4, _⟩ := PoolAllocator.Allocate_pop h hv
    exact ⟨x, a', m, _, h1, h2, rfl, by simp only [List.length_cons]; omega, h3, h4,
      fun _ _ _ _ _ => rfl⟩
  | nil =>
    cases hq : m.mallocQueue with
    | nil => rw [hv, hq] at hres; simp at hres
    | cons b rest =>
      obtain ⟨a', m', h1, h2, h3, h4, _, h6, _, h8⟩ := PoolAllocator.Allocate_grow h hv hq
      refine ⟨b, a', m', _, h1, h2, rfl, ?_, h3, h4, ?_⟩
      · have := h.chunks_pos
        simp only [slotsFrom_length, h6, List.length_cons, List.length_nil, Nat.add_mul]
        omega
      · intro q hq' y hy1 hy2
        apply h8
        obtain ⟨_, _, b', hb', hb1, hb2⟩ := h.slot_bounds (x := q) (List.mem_append_right _ hq')
        have hok := h.blocks_ok
        rw [hq] at hok
        have hsep := (List.pairwise_append.1 hok.2).2.2 b' hb' b (by simp)
        rcases hsep with h9 | h9
        · left; omega
        · right; omega

theorem PoolAllocator.New_of_Allocate {a a' : PoolAllocator} {m m' : Machine} {p : Nat}
    (h : a.Allocate m = some (p, a', m')) (obj : List Nat) :
    a.New m obj
      = some (p, a', { m' with mem := writeBytes m'.mem p (obj.take a'.m_ObjectSize) }) := by
  unfold PoolAllocator.New
  rw [h]

/-- `New` with an empty object representation is `Allocate`. -/
theorem PoolAllocator.New_nil (a : PoolAllocator) (m : Machine) : a.New m [] = a.Allocate m := by
  unfold PoolAllocator.New
  cases a.Allocate m with
  | none => rfl
  | some r =>
    obtain ⟨p, a1, m1⟩ := r
    simp [List.take_nil, writeBytes]

/-- `New` on a pool that has a free chunk or can still reserve a block. -/
theorem PoolAllocator.New_spec {a : PoolAllocator} {m : Machine} {v : PoolView}
    (h : PoolInv a m v)
    (hres : 0 < v.free.length + m.mallocQueue.length * a.m_ChunksPerBlock) (obj : List Nat) :
    ∃ (p : Nat) (a' : PoolAllocator) (m' : Machine) (v' : PoolView),
      a.New m obj = some (p, a', m') ∧ PoolInv a' m' v' ∧ v'.live = p :: v.live ∧
      v'.free.length + m'.mallocQueue.length * a.m_ChunksPerBlock + 1
        = v.free.length + m.mallocQueue.length * a.m_ChunksPerBlock ∧
      a'.m_ChunksPerBlock = a.m_ChunksPerBlock ∧ a'.m_ObjectSize = a.m_ObjectSize ∧
      (∀ q ∈ v.live, ∀ y, q ≤ y → y < q + a.m_ObjectSize → m'.mem y = m.mem y) ∧
      readBytes m'.mem p (obj.take a.m_ObjectSize).length = obj.take a.m_ObjectSize := by
  obtain ⟨p, a', m', v', h1, h2, h3, h4, h5, h6, h7⟩ := PoolAllocator.Allocate_spec h hres
  have hp : p ∈ v'.live := by rw [h3]; simp
  have hlen : (obj.take a'.m_ObjectSize).length ≤ a'.m_ObjectSize := by
    rw [List.length_take]; exact Nat.min_le_left _ _
  refine ⟨p, a', _, v', PoolAllocator.New_of_Allocate h1 obj, h2.store hp _ hlen, h3, h4, h5, h6,
    ?_, ?_⟩
  · intro q hq y hy1 hy2
    show writeBytes m'.mem p (obj.take a'.m_ObjectSize) y = m.mem y
    rw [← h7 q hq y hy1 hy2]
    apply writeBytes_outside
    have hpw := (List.pairwise_append.1 h2.pairwise).2.1
    rw [h3, List.pairwise_cons] at hpw
    rw [h6] at hlen
    rcases hpw.1 q hq with h8 | h8
    · right; rw [h6] at h8 ⊢; omega
    · left; rw [h6] at h8; omega
  · show readBytes (writeBytes m'.mem p (obj.take a'.m_ObjectSize)) p _ = _
    rw [h6]
    exact readBytes_writeBytes_same _ _ _

/-- `New` on a pool whose free list is not empty pops its head and reserves nothing. -/
theorem PoolAllocator.New_pop {a : PoolAllocator} {m : Machine} {v : PoolView}
    (h : PoolInv a m v) {x : Nat} {fl : List Nat} (hv : v.free = x :: fl) (obj : List Nat) :
    ∃ (a' : PoolAllocator) (m' : Machine), a.New m obj = some (x, a', m') ∧
      PoolInv a' m' ⟨fl, x :: v.live, v.blocks⟩ ∧
      a'.m_ChunksPerBlock = a.m_ChunksPerBlock ∧ a'.m_ObjectSize = a.m_ObjectSize ∧
      a'.m_Data.TotalSize = a.m_Data.TotalSize ∧
      m'.mallocQueue = m.mallocQueue ∧ m'.reserved = m.reserved := by
  obtain ⟨a', h1, h2, h3, h4, h5⟩ := PoolAllocator.Allocate_pop h hv
  have hlen : (obj.take a'.m_ObjectSize).length ≤ a'.m_ObjectSize := by
    rw [List.length_take]; exact Nat.min_le_left _ _
  exact ⟨a', _, PoolAllocator.New_of_Allocate h1 obj,
    h2.store (p := x) (List.mem_cons_self _ _) _ hlen, h3, h4, h5, rfl, rfl⟩

/-- A run of `New` calls on a pool with enough free chunks and blocks to come. -/
theorem PoolAllocator.newAll_spec (objs : List (List Nat)) :
    ∀ {a : PoolAllocator} {m : Machine} {v : PoolView}, PoolInv a m v →
      objs.length ≤ v.free.length + m.mallocQueue.length * a.m_ChunksPerBlock →
      ∃ (ps : List Nat) (a' : PoolAllocator) (m' : Machine) (v' : PoolView),
        PoolAllocator.newAll objs a m = some (ps, a', m') ∧ PoolInv a' m' v' ∧
        v'.live = ps.reverse ++ v.live ∧ ps.length = objs.length ∧
        a'.m_ChunksPerBlock = a.m_ChunksPerBlock ∧ a'.m_ObjectSize = a.m_ObjectSize ∧
        (∀ q ∈ v.live, ∀ y, q ≤ y → y < q + a.m_ObjectSize → m'.mem y = m.mem y) ∧
        List.Forall₂ (fun p obj => readBytes m'.mem p (obj.take a.m_ObjectSize).length
          = obj.take a.m_ObjectSize) ps objs := by
  induction objs with
  | nil =>
    intro a m v h _
    exact ⟨[], a, m, v, rfl, h, rfl, rfl, rfl, rfl, fun _ _ _ _ _ => rfl, List.Forall₂.nil⟩
  | cons obj objs ih =>
    intro a m v h hres
    rw [List.length_cons] at hres
    obtain ⟨p, a1, m1, v1, h1, h2, h3, h4, h5, h6, h7, h8⟩ :=
      PoolAllocator.New_spec h (by omega) obj
    obtain ⟨ps, a2, m2, v2, g1, g2, g3, g4, g5, g6, g7, g8⟩ :=
      ih h2 (by rw [h5]; omega)
    rw [h6] at g7 g8
    refine ⟨p :: ps, a2, m2, v2, ?_, g2, ?_, ?_, g5.trans h5, g6.trans h6, ?_, ?_⟩
    · rw [PoolAllocator.newAll, h1]
      dsimp only
      rw [g1]
    · rw [g3, h3, List.reverse_cons, List.append_assoc, List.singleton_append]
    · rw [List.length_cons, g4, List.length_cons]
    · intro q hq y hy1 hy2
      rw [g7 q (by rw [h3]; exact List.mem_cons_of_mem _ hq) y hy1 hy2]
      exact h7 q hq y hy1 hy2
    · refine List.Forall₂.cons ?_ g8
      refine Eq.trans ?_ h8
      apply readBytes_congr
      intro y hy1 hy2
      apply g7 p (by rw [h3]; exact List.mem_cons_self _ _) y hy1
      have : (obj.take a.m_ObjectSize).length ≤ a.m_ObjectSize := by
        rw [List.length_take]; exact Nat.min_le_left _ _
      omega

/-- A run of `New` calls no longer than the free list pops the free list in
order and reserves no block. -/
theorem PoolAllocator.newAll_pop_spec (xs : List Nat) :
    ∀ {objs : List (List Nat)} {a : PoolAllocator} {m : Machine} {v : PoolView} {fl : List Nat},
      PoolInv a m v → v.free = xs ++ fl → objs.length = xs.length →
      ∃ (a' : PoolAllocator) (m' : Machine),
        PoolAllocator.newAll objs a m = some (xs, a', m') ∧
        PoolInv a' m' ⟨fl, xs.reverse ++ v.live, v.blocks⟩ ∧
        a'.m_ChunksPerBlock = a.m_ChunksPerBlock ∧ a'.m_ObjectSize = a.m_ObjectSize ∧
        a'.m_Data.TotalSize = a.m_Data.TotalSize ∧
        m'.mallocQueue = m.mallocQueue ∧ m'.reserved = m.reserved := by
  induction xs with
  | nil =>
    intro objs a m v fl h hv hlen
    have : objs = [] := List.length_eq_zero.1 hlen
    subst this
    refine ⟨a, m, rfl, ?_, rfl, rfl, rfl, rfl, rfl⟩
    rw [List.nil_append] at hv
    rw [← hv]
    exact h
  | cons x xs ih =>
    intro objs a m v fl h hv hlen
    cases objs with
    | nil => simp at hlen
    | cons obj objs =>
      rw [List.cons_append] at hv
      obtain ⟨a1, m1, h1, h2, h3, h4, h5, h6, h7⟩ := PoolAllocator.New_pop h hv obj
      obtain ⟨a2, m2, g1, g2, g3, g4, g5, g6, g7⟩ :=
        @ih objs _ _ _ fl h2 rfl (by simpa using hlen)
      refine ⟨a2, m2, ?_, ?_, g3.trans h3, g4.trans h4, g5.trans h5, g6.trans h6, g7.trans h7⟩
      · rw [PoolAllocator.newAll, h1]
        dsimp only
        rw [g1]
      · rw [List.reverse_cons, List.append_assoc, List.singleton_append]
        exact g2

/-- A run of `Delete` calls on distinct live slots pushes them onto the free list. -/
theorem PoolAllocator.deleteAll_spec (qs : List Nat) :
    ∀ {a : PoolAllocator} {m : Machine} {v : PoolView}, PoolInv a m v → qs.Nodup →
      (∀ q ∈ qs, q ∈ v.live) →
      ∃ (a' : PoolAllocator) (m' : Machine) (live' : List Nat),
        PoolAllocator.deleteAll qs a m = some (a', m') ∧
        PoolInv a' m' ⟨qs.reverse ++ v.free, live', v.blocks⟩ ∧
        live'.length + qs.length = v.live.length ∧
        a'.m_ChunksPerBlock = a.m_ChunksPerBlock ∧ a'.m_ObjectSize = a.m_ObjectSize ∧
        a'.m_Data.TotalSize = a.m_Data.TotalSize ∧
        m'.mallocQueue = m.mallocQueue ∧ m'.reserved = m.reserved := by
  induction qs with
  | nil =>
    intro a m v h _ _
    exact ⟨a, m, v.live, rfl, h, rfl, rfl, rfl, rfl, rfl, rfl⟩
  | cons p qs ih =>
    intro a m v h hnd hsub
    rw [List.nodup_cons] at hnd
    have hp := hsub p (List.mem_cons_self _ _)
    obtain ⟨a1, m1, h1, h2, h3, h4, h5, h6, h7⟩ := PoolAllocator.Delete_spec h hp
    obtain ⟨a2, m2, live', g1, g2, g3, g4, g5, g6, g7, g8⟩ := ih h2 hnd.2 (by
      intro q hq
      show q ∈ v.live.erase p
      have hne : q ≠ p := fun e => hnd.1 (e ▸ hq)
      exact (List.mem_erase_of_ne hne).2 (hsub q (List.mem_cons_of_mem _ hq)))
    refine ⟨a2, m2, live', ?_, ?_, ?_, g4.trans h3, g5.trans h4, g6.trans h5, g7.trans h6,
      g8.trans h7⟩
    · rw [PoolAllocator.deleteAll, h1]
      dsimp only
      rw [g1]
    · rw [List.reverse_cons, List.append_assoc, List.singleton_append]
      exact g2
    · have e : (v.live.erase p).length = v.live.length - 1 := List.length_erase_of_mem hp
      have hpos : 0 < v.live.length := List.length_pos_of_mem hp
      have g3' : live'.length + qs.length = (v.live.erase p).length := g3
      rw [List.length_cons]
      omega

theorem IsFreeList_last (mem : Memory) (l : List Nat) (x : Nat) :
    ∀ h, IsFreeList mem h (l ++ [x]) → readPtr mem x = 0 := by
  induction l with
  | nil =>
    intro h hl
    rw [List.nil_append, IsFreeList_cons, IsFreeList_nil] at hl
    exact hl.2.2
  | cons y ys ih =>
    intro h hl
    rw [List.cons_append, IsFreeList_cons] at hl
    exact ih _ hl.2.2

theorem slotsFrom_last (c sz n : Nat) :
    slotsFrom c sz (n + 1) = slotsFrom c sz n ++ [c + n * sz] := by
  rw [slotsFrom_eq_map, slotsFrom_eq_map, List.range_succ, List.map_append]
  rfl

/-! ## Pool allocator: the claims -/

/-- C10: constructing a pool with `chunksPerBlock = 0` fails the assertion; with
`chunksPerBlock = k > 0`, `k ≤ 2 ^ 31` so that the `int` counter of the loop of
`AllocateBlock` does not overflow (for an element larger than a link, `malloc`
handing out a block `b` that fits the address space), it reserves exactly one
block of `k * sizeof(T)` bytes, `TotalSize = k * sizeof(T)`, `UsedSize = 0`, and the
free list from the head is `b, b + sizeof(T), ..., b + (k - 1) * sizeof(T)` in this
order, the link of the last slot being the terminal marker. -/
theorem PoolAllocator.construct_free_list (name : String) (k sz : Nat) (m : Machine) (b : Nat)
    (rest : List Nat) (hk : 0 < k) (hint : k ≤ 2 ^ 31) (hsz : sizeofChunk < sz)
    (hq : m.mallocQueue = b :: rest) (hb : 0 < b) (hend : b + k * sz ≤ SIZE_MOD) :
    PoolAllocator.construct name 0 sz m = none ∧
    ∃ (a : PoolAllocator) (m' : Machine), PoolAllocator.construct name k sz m = some (a, m') ∧
      m'.reserved = (b, k * sz) :: m.reserved ∧ m'.mallocQueue = rest ∧
      a.m_Data.TotalSize = k * sz ∧ a.m_Data.UsedSize = 0 ∧
      a.m_HeadPtr = b ∧
      IsFreeList m'.mem a.m_HeadPtr ((List.range k).map (fun i => b + i * sz)) ∧
      readPtr m'.mem (b + (k - 1) * sz) = 0 := by
  refine ⟨rfl, ?_⟩
  obtain ⟨m', hab, hq', hres, _, hlist, _, _⟩ :=
    PoolAllocator.AllocateBlock_spec
      { m_Data := AllocatorData.mk0 name 0, m_ChunksPerBlock := k, m_ObjectSize := sz,
        m_HeadPtr := 0 } m b rest hk hint hsz hq hb hend
      (by show 0 + k * sz < SIZE_MOD; omega)
  have hlist' : IsFreeList m'.mem b (slotsFrom b sz k) := hlist
  refine ⟨{ m_Data := { DebugName := name, TotalSize := 0 + k * sz, UsedSize := 0 },
            m_ChunksPerBlock := k, m_ObjectSize := sz, m_HeadPtr := b },
          m'.Register { DebugName := name, TotalSize := 0 + k * sz, UsedSize := 0 }, ?_, hres, hq',
          Nat.zero_add _, rfl, rfl, ?_, ?_⟩
  · unfold PoolAllocator.construct
    rw [if_pos hk]
    dsimp only
    rw [hab]
    rfl
  · rw [← slotsFrom_eq_map]
    exact hlist'
  · obtain ⟨n, rfl⟩ : ∃ n, k = n + 1 := ⟨k - 1, by omega⟩
    rw [slotsFrom_last] at hlist'
    rw [Nat.add_sub_cancel]
    exact IsFreeList_last _ _ _ _ hlist'

theorem PoolAllocator.construct_free_list_witness :
    PoolAllocator.construct "pool" 0 16 (Machine.init [4096]) = none ∧
    ∃ (a : PoolAllocator) (m' : Machine),
      PoolAllocator.construct "pool" 3 16 (Machine.init [4096]) = some (a, m') ∧
      m'.reserved = (4096, 3 * 16) :: (Machine.init [4096]).reserved ∧ m'.mallocQueue = [] ∧
      a.m_Data.TotalSize = 3 * 16 ∧ a.m_Data.UsedSize = 0 ∧
      a.m_HeadPtr = 4096 ∧
      IsFreeList m'.mem a.m_HeadPtr ((List.range 3).map (fun i => 4096 + i * 16)) ∧
      readPtr m'.mem (4096 + (3 - 1) * 16) = 0 :=
  PoolAllocator.construct_free_list "pool" 3 16 (Machine.init [4096]) 4096 [] (by decide)
    (by decide) (by decide) rfl (by decide) (by decide)

/-- C1: on a pool constructed with `chunksPerBlock = k > 0` (`k ≤ 2 ^ 31`, so that
the `int` counter of the loop of `AllocateBlock` does not overflow), `n` calls of
`New` (or `Allocate`: `New` with no bytes), also more than `k` of them as long as
`malloc` supplies the blocks, all succeed and leave `UsedSize = n * sizeof(T)`;
passing the `n` objects to `Delete` then, in index order or in reverse index
order, leaves `UsedSize = 0`. -/
theorem PoolAllocator.usedSize_new_then_delete (name : String) (k sz : Nat) (m : Machine)
    (b : Nat) (rest : List Nat) (objs : List (List Nat)) (hk : 0 < k) (hint : k ≤ 2 ^ 31)
    (hsz : sizeofChunk < sz)
    (hq : m.mallocQueue = b :: rest) (hok : BlocksOK k sz (b :: rest))
    (hn : objs.length ≤ (rest.length + 1) * k) :
    ∃ (a0 : PoolAllocator) (m0 : Machine) (ps : List Nat) (a1 : PoolAllocator) (m1 : Machine)
      (a2 : PoolAllocator) (m2 : Machine) (a3 : PoolAllocator) (m3 : Machine),
      PoolAllocator.construct name k sz m = some (a0, m0) ∧
      PoolAllocator.newAll objs a0 m0 = some (ps, a1, m1) ∧ ps.length = objs.length ∧
      a1.m_Data.UsedSize = objs.length * sz ∧
      PoolAllocator.deleteAll ps a1 m1 = some (a2, m2) ∧ a2.m_Data.UsedSize = 0 ∧
      PoolAllocator.deleteAll ps.reverse a1 m1 = some (a3, m3) ∧ a3.m_Data.UsedSize = 0 := by
  obtain ⟨a0, m0, hc, inv0, ck, cs, _, _, _, cq, _, _⟩ :=
    PoolAllocator.construct_spec name k sz m b rest hk hint hsz hq hok
  obtain ⟨ps, a1, m1, v1, hnew, inv1, hlive, hlen, ck1, cs1, _, _⟩ :=
    PoolAllocator.newAll_spec objs inv0 (by
      show objs.length ≤ (slotsFrom b sz k).length + m0.mallocQueue.length * a0.m_ChunksPerBlock
      rw [slotsFrom_length, cq, ck]
      rw [Nat.add_mul, Nat.one_mul] at hn
      omega)
  have hlive' : v1.live = ps.reverse := by rw [hlive]; exact List.append_nil _
  have hnd : ps.Nodup := by
    have h1 := pairwise_sep_nodup inv1.size_pos (List.pairwise_append.1 inv1.pairwise).2.1
    rw [hlive'] at h1
    exact List.nodup_reverse.1 h1
  have hused : a1.m_Data.UsedSize = objs.length * sz := by
    rw [inv1.used, hlive', List.length_reverse, hlen, cs1, cs]
  obtain ⟨a2, m2, l2, hd2, inv2, hl2, _, _, _, _, _⟩ :=
    PoolAllocator.deleteAll_spec ps inv1 hnd (by
      intro q hq'; rw [hlive']; exact List.mem_reverse.2 hq')
  obtain ⟨a3, m3, l3, hd3, inv3, hl3, _, _, _, _, _⟩ :=
    PoolAllocator.deleteAll_spec ps.reverse inv1 (List.nodup_reverse.2 hnd) (by
      intro q hq'; rw [hlive']; exact hq')
  refine ⟨a0, m0, ps, a1, m1, a2, m2, a3, m3, hc, hnew, hlen, hused, hd2, ?_, hd3, ?_⟩
  · have e : l2.length = 0 := by
      rw [hlive', List.length_reverse] at hl2; omega
    have := inv2.used
    simp only [e, Nat.zero_mul] at this
    exact this
  · have e : l3.length = 0 := by
      rw [hlive', List.length_reverse] at hl3; omega
    have := inv3.used
    simp only [e, Nat.zero_mul] at this
    exact this

theorem PoolAllocator.usedSize_new_then_delete_witness :
    ∃ (a0 : PoolAllocator) (m0 : Machine) (ps : List Nat) (a1 : PoolAllocator) (m1 : Machine)
      (a2 : PoolAllocator) (m2 : Machine) (a3 : PoolAllocator) (m3 : Machine),
      PoolAllocator.construct "pool" 2 16 (Machine.init [4096, 8192]) = some (a0, m0) ∧
      PoolAllocator.newAll [[1], [2], []] a0 m0 = some (ps, a1, m1) ∧
      ps.length = [[1], [2], ([] : List Nat)].length ∧
      a1.m_Data.UsedSize = [[1], [2], ([] : List Nat)].length * 16 ∧
      PoolAllocator.deleteAll ps a1 m1 = some (a2, m2) ∧ a2.m_Data.UsedSize = 0 ∧
      PoolAllocator.deleteAll ps.reverse a1 m1 = some (a3, m3) ∧ a3.m_Data.UsedSize = 0 :=
  PoolAllocator.usedSize_new_then_delete "pool" 2 16 (Machine.init [4096, 8192]) 4096 [8192]
    [[1], [2], []] (by decide) (by decide) (by decide) rfl (by decide) (by decide)

/-- C2: on a pool in a state reached under correct use (`PoolInv`, which holds
`chunksPerBlock ≤ 2 ^ 31`), after `n` calls of
`New`/`Allocate` and the `Delete`/`Deallocate` of the `n` returned addresses in
any order `qs`, the next `n` calls of `New`/`Allocate` return the freed
addresses, the most recently freed first (`qs.reverse`), and reserve no block:
`TotalSize`, the log of reserved blocks and the pending `malloc` results stay. -/
theorem PoolAllocator.reuse_after_delete {a : PoolAllocator} {m : Machine} {v : PoolView}
    (h : PoolInv a m v) (objs objs2 : List (List Nat))
    (hres : objs.length ≤ v.free.length + m.mallocQueue.length * a.m_ChunksPerBlock)
    (hlen2 : objs2.length = objs.length) :
    ∃ (ps : List Nat) (a1 : PoolAllocator) (m1 : Machine),
      PoolAllocator.newAll objs a m = some (ps, a1, m1) ∧ ps.length = objs.length ∧
      ∀ qs : List Nat, qs.Perm ps →
        ∃ (a2 : PoolAllocator) (m2 : Machine) (a3 : PoolAllocator) (m3 : Machine),
          PoolAllocator.deleteAll qs a1 m1 = some (a2, m2) ∧
          PoolAllocator.newAll objs2 a2 m2 = some (qs.reverse, a3, m3) ∧
          a3.m_Data.TotalSize = a2.m_Data.TotalSize ∧
          m3.reserved = m2.reserved ∧ m3.mallocQueue = m2.mallocQueue := by
  obtain ⟨ps, a1, m1, v1, hnew, inv1, hlive, hlen, _, _, _, _⟩ :=
    PoolAllocator.newAll_spec objs h hres
  refine ⟨ps, a1, m1, hnew, hlen, ?_⟩
  intro qs hperm
  have hnd1 : (ps.reverse ++ v.live).Nodup := by
    have h1 := pairwise_sep_nodup inv1.size_pos (List.pairwise_append.1 inv1.pairwise).2.1
    rw [hlive] at h1
    exact h1
  have hndps : ps.Nodup := List.nodup_reverse.1 (List.Nodup.of_append_left hnd1)
  have hndqs : qs.Nodup := hperm.nodup_iff.2 hndps
  obtain ⟨a2, m2, l2, hd2, inv2, _, _, _, _, _, _⟩ :=
    PoolAllocator.deleteAll_spec qs inv1 hndqs (by
      intro q hq
      rw [hlive]
      exact List.mem_append_left _ (List.mem_reverse.2 (hperm.subset hq)))
  obtain ⟨a3, m3, hn3, _, _, _, ht3, hq3, hr3⟩ :=
    @PoolAllocator.newAll_pop_spec qs.reverse objs2 _ _ _ v1.free inv2 rfl (by
      rw [List.length_reverse, hlen2, ← hlen, hperm.length_eq])
  exact ⟨a2, m2, a3, m3, hd2, hn3, ht3, hr3, hq3⟩

theorem PoolAllocator.reuse_after_delete_witness :
    ∃ (a : PoolAllocator) (m : Machine),
      PoolAllocator.construct "pool" 4 16 (Machine.init [4096]) = some (a, m) ∧
      ∃ (ps : List Nat) (a1 : PoolAllocator) (m1 : Machine),
        PoolAllocator.newAll [[1], [2], [3]] a m = some (ps, a1, m1) ∧
        ps.length = [[1], [2], [3]].length ∧
        ∀ qs : List Nat, qs.Perm ps →
          ∃ (a2 : PoolAllocator) (m2 : Machine) (a3 : PoolAllocator) (m3 : Machine),
            PoolAllocator.deleteAll qs a1 m1 = some (a2, m2) ∧
            PoolAllocator.newAll [[4], [5], [6]] a2 m2 = some (qs.reverse, a3, m3) ∧
            a3.m_Data.TotalSize = a2.m_Data.TotalSize ∧
            m3.reserved = m2.reserved ∧ m3.mallocQueue = m2.mallocQueue := by
  obtain ⟨a, m, hc, inv, ck, _, _, _, _, cq, _, _⟩ :=
    PoolAllocator.construct_spec "pool" 4 16 (Machine.init [4096]) 4096 [] (by decide)
      (by decide) (by decide) rfl (by decide)
  exact ⟨a, m, hc, PoolAllocator.reuse_after_delete inv [[1], [2], [3]] [[4], [5], [6]]
    (by simp [slotsFrom_length, cq, ck]) rfl⟩

/-- C3: on a pool in a state reached under correct use (`PoolInv`, which holds
`chunksPerBlock ≤ 2 ^ 31`), a run of `New` calls
leaves every byte of every object that was live before the run as it was, each
object created by the run holds, after the whole run, the bytes its constructor
stored, and the slots of all these objects are pairwise non-overlapping. -/
theorem PoolAllocator.new_keeps_live_objects {a : PoolAllocator} {m : Machine} {v : PoolView}
    (h : PoolInv a m v) (objs : List (List Nat))
    (hres : objs.length ≤ v.free.length + m.mallocQueue.length * a.m_ChunksPerBlock) :
    ∃ (ps : List Nat) (a' : PoolAllocator) (m' : Machine),
      PoolAllocator.newAll objs a m = some (ps, a', m') ∧ ps.length = objs.length ∧
      (∀ q ∈ v.live, readBytes m'.mem q a.m_ObjectSize = readBytes m.mem q a.m_ObjectSize) ∧
      List.Forall₂ (fun p obj => readBytes m'.mem p (obj.take a.m_ObjectSize).length
        = obj.take a.m_ObjectSize) ps objs ∧
      (ps ++ v.live).Pairwise (Sep a.m_ObjectSize) := by
  obtain ⟨ps, a', m', v', hnew, inv', hlive, hlen, _, cs, hframe, hobjs⟩ :=
    PoolAllocator.newAll_spec objs h hres
  refine ⟨ps, a', m', hnew, hlen, ?_, hobjs, ?_⟩
  · intro q hq
    exact readBytes_congr _ _ _ _ (hframe q hq)
  · have h1 := (List.pairwise_append.1 inv'.pairwise).2.1
    rw [hlive, cs] at h1
    exact pairwise_sep_perm (List.Perm.append_right _ (List.reverse_perm ps).symm) h1

theorem PoolAllocator.new_keeps_live_objects_witness :
    ∃ (a : PoolAllocator) (m : Machine) (v : PoolView),
      PoolInv a m v ∧ v.live.length = 1 ∧
      ∃ (ps : List Nat) (a' : PoolAllocator) (m' : Machine),
        PoolAllocator.newAll [[1, 2], [3], [4, 5, 6]] a m = some (ps, a', m') ∧
        ps.length = [[1, 2], [3], [4, 5, 6]].length ∧
        (∀ q ∈ v.live, readBytes m'.mem q a.m_ObjectSize = readBytes m.mem q a.m_ObjectSize) ∧
        List.Forall₂ (fun p obj => readBytes m'.mem p (obj.take a.m_ObjectSize).length
          = obj.take a.m_ObjectSize) ps [[1, 2], [3], [4, 5, 6]] ∧
        (ps ++ v.live).Pairwise (Sep a.m_ObjectSize) := by
  obtain ⟨a0, m0, _, inv0, ck0, _, _, _, _, cq0, _, _⟩ :=
    PoolAllocator.construct_spec "pool" 2 16 (Machine.init [4096, 8192]) 4096 [8192]
      (by decide) (by decide) (by decide) rfl (by decide)
  obtain ⟨p, a, m, v, _, inv, hlive, hcount, ck, _, _, _⟩ :=
    PoolAllocator.New_spec inv0 (by simp [slotsFrom_length]) [7, 7]
  simp only [slotsFrom_length, cq0, ck0, List.length_cons, List.length_nil] at hcount
  exact ⟨a, m, v, inv, by rw [hlive]; rfl,
    PoolAllocator.new_keeps_live_objects inv [[1, 2], [3], [4, 5, 6]]
      (by rw [ck, ck0]; simp only [List.length_cons, List.length_nil]; omega)⟩

/-! ## Pool allocator: growth, the size check -/

theorem PoolAllocator.AllocateBlock_isSome_iff (a : PoolAllocator) (m : Machine) (cs : Nat) :
    (a.AllocateBlock m cs).isSome = true ↔
      sizeofChunk < cs ∧ (m.malloc (wmul a.m_ChunksPerBlock cs)).1 ≠ 0 := by
  unfold PoolAllocator.AllocateBlock
  by_cases h1 : cs > sizeofChunk
  · rw [if_pos h1]
    by_cases h2 : (m.malloc (wmul a.m_ChunksPerBlock cs)).1 = 0
    · simp [h2]
    · simp [h2, h1]
  · rw [if_neg h1]
    simp [h1]

theorem PoolAllocator.AllocateBlock_some {a a1 : PoolAllocator} {m m1 : Machine} {cs bb : Nat}
    (h : a.AllocateBlock m cs = some (bb, a1, m1)) :
    bb ≠ 0 ∧ a1.m_Data.TotalSize = wadd a.m_Data.TotalSize (wmul a.m_ChunksPerBlock cs) := by
  unfold PoolAllocator.AllocateBlock at h
  by_cases h1 : cs > sizeofChunk
  · rw [if_pos h1] at h
    by_cases h2 : (m.malloc (wmul a.m_ChunksPerBlock cs)).1 = 0
    · simp [h2] at h
    · simp only [h2, if_false, Option.some.injEq, Prod.mk.injEq] at h
      obtain ⟨e1, e2, _⟩ := h
      subst e1 e2
      exact ⟨h2, rfl⟩
  · rw [if_neg h1] at h
    exact Option.noConfusion h

/-- `Allocate` never hands out `nullptr`. -/
theorem PoolAllocator.Allocate_ne_null {a a' : PoolAllocator} {m m' : Machine} {p : Nat}
    (h : a.Allocate m = some (p, a', m')) : p ≠ 0 := by
  unfold PoolAllocator.Allocate at h
  by_cases h0 : a.m_HeadPtr = 0
  · rw [if_pos h0] at h
    cases hb : a.AllocateBlock m a.m_ObjectSize with
    | none => rw [hb] at h; exact Option.noConfusion h
    | some r =>
      obtain ⟨bb, a1, m1⟩ := r
      rw [hb] at h
      simp only [Option.some.injEq, Prod.mk.injEq] at h
      rw [← h.1]
      exact (PoolAllocator.AllocateBlock_some hb).1
  · rw [if_neg h0] at h
    simp only [Option.some.injEq, Prod.mk.injEq] at h
    rw [← h.1]
    exact h0

/-- `Allocate` with a free chunk at the head returns the head and reserves nothing. -/
theorem PoolAllocator.Allocate_of_head_ne {a : PoolAllocator} (m : Machine)
    (h0 : a.m_HeadPtr ≠ 0) :
    ∃ a' : PoolAllocator, a.Allocate m = some (a.m_HeadPtr, a', m) ∧
      a'.m_Data.TotalSize = a.m_Data.TotalSize ∧ a'.m_HeadPtr = readPtr m.mem a.m_HeadPtr ∧
      a'.m_ChunksPerBlock = a.m_ChunksPerBlock ∧ a'.m_ObjectSize = a.m_ObjectSize ∧
      a'.m_Data.UsedSize = wadd a.m_Data.UsedSize a.m_ObjectSize := by
  refine ⟨{ a with
            m_HeadPtr := readPtr m.mem a.m_HeadPtr
            m_Data := { a.m_Data with UsedSize := wadd a.m_Data.UsedSize a.m_ObjectSize } },
          ?_, rfl, rfl, rfl, rfl, rfl⟩
  unfold PoolAllocator.Allocate
  rw [if_neg h0]

theorem PoolAllocator.Deallocate_some {a a' : PoolAllocator} {m m' : Machine} {p : Nat}
    (h : a.Deallocate m p = some (a', m')) :
    p ≠ 0 ∧ a'.m_HeadPtr = p ∧ m'.mem = writePtr m.mem p a.m_HeadPtr ∧
      a'.m_Data.TotalSize = a.m_Data.TotalSize ∧
      a'.m_Data.UsedSize = wsub a.m_Data.UsedSize a.m_ObjectSize ∧
      a'.m_ChunksPerBlock = a.m_ChunksPerBlock ∧ a'.m_ObjectSize = a.m_ObjectSize ∧
      m'.reserved = m.reserved ∧ m'.mallocQueue = m.mallocQueue := by
  unfold PoolAllocator.Deallocate at h
  by_cases h0 : p = 0
  · rw [if_pos h0] at h
    exact Option.noConfusion h
  · rw [if_neg h0] at h
    simp only [Option.some.injEq, Prod.mk.injEq] at h
    obtain ⟨e1, e2⟩ := h
    subst e1 e2
    exact ⟨h0, rfl, rfl, rfl, rfl, rfl, rfl, rfl, rfl⟩

theorem PoolInv.head_eq_zero_iff {a : PoolAllocator} {m : Machine} {v : PoolView}
    (h : PoolInv a m v) : a.m_HeadPtr = 0 ↔ v.free = [] := by
  have hfl := h.free_list
  cases hv : v.free with
  | nil =>
    rw [hv, IsFreeList_nil] at hfl
    simp [hfl]
  | cons x xs =>
    rw [hv, IsFreeList_cons] at hfl
    simp only [reduceCtorEq, iff_false]
    rw [hfl.1]
    exact hfl.2.1

/-- C11: on a pool in a state reached under correct use (`PoolInv`, which holds
`chunksPerBlock ≤ 2 ^ 31`: the `int` counter of the loop of `AllocateBlock` does
not overflow), `Allocate` with the
free-list head at the terminal marker reserves exactly one block (`TotalSize`
grows by `chunksPerBlock * sizeof(T)`, one entry is added to the log of reserved
blocks), returns the first slot of that block and leaves its other
`chunksPerBlock - 1` slots, in order, as the free list; `Allocate` with a chunk
at the head returns that chunk and leaves `TotalSize` alone; no `Allocate` returns
the null marker; `Deallocate` and `Delete` leave `TotalSize` and the log alone. -/
theorem PoolAllocator.totalSize_changes_only_on_growth {a : PoolAllocator} {m : Machine}
    {v : PoolView} (h : PoolInv a m v) :
    (∀ b rest, a.m_HeadPtr = 0 → m.mallocQueue = b :: rest →
      ∃ (a' : PoolAllocator) (m' : Machine), a.Allocate m = some (b, a', m') ∧ b ≠ 0 ∧
        a'.m_Data.TotalSize = a.m_Data.TotalSize + a.m_ChunksPerBlock * a.m_ObjectSize ∧
        m'.reserved = (b, a.m_ChunksPerBlock * a.m_ObjectSize) :: m.reserved ∧
        IsFreeList m'.mem a'.m_HeadPtr
          ((List.range (a.m_ChunksPerBlock - 1)).map (fun i => b + (i + 1) * a.m_ObjectSize))) ∧
    (a.m_HeadPtr ≠ 0 →
      ∃ a' : PoolAllocator, a.Allocate m = some (a.m_HeadPtr, a', m) ∧
        a'.m_Data.TotalSize = a.m_Data.TotalSize) ∧
    (∀ p a' m', a.Allocate m = some (p, a', m') → p ≠ 0) ∧
    (∀ p a' m', a.Deallocate m p = some (a', m') →
      a'.m_Data.TotalSize = a.m_Data.TotalSize ∧ m'.reserved = m.reserved) ∧
    (∀ p a' m', a.Delete m p = some (a', m') →
      a'.m_Data.TotalSize = a.m_Data.TotalSize ∧ m'.reserved = m.reserved) := by
  refine ⟨?_, ?_, ?_, ?_, ?_⟩
  · intro b rest h0 hq
    obtain ⟨a', m', h1, h2, _, _, h5, _, h7, _⟩ :=
      PoolAllocator.Allocate_grow h (h.head_eq_zero_iff.1 h0) hq
    refine ⟨a', m', h1, PoolAllocator.Allocate_ne_null h1, h5, h7, ?_⟩
    have hl := h2.free_list
    have e : slotsFrom (b + a.m_ObjectSize) a.m_ObjectSize (a.m_ChunksPerBlock - 1)
        = (List.range (a.m_ChunksPerBlock - 1)).map (fun i => b + (i + 1) * a.m_ObjectSize) := by
      rw [slotsFrom_eq_map]
      apply List.map_congr_left
      intro i _
      rw [Nat.add_mul, Nat.one_mul]
      omega
    rw [← e]
    exact hl
  · intro h0
    obtain ⟨a', h1, h2, _⟩ := PoolAllocator.Allocate_of_head_ne m h0
    exact ⟨a', h1, h2⟩
  · intro p a' m' hA
    exact PoolAllocator.Allocate_ne_null hA
  · intro p a' m' hD
    have := PoolAllocator.Deallocate_some hD
    exact ⟨this.2.2.2.1, this.2.2.2.2.2.2.2.1⟩
  · intro p a' m' hD
    have := PoolAllocator.Deallocate_some hD
    exact ⟨this.2.2.2.1, this.2.2.2.2.2.2.2.1⟩

theorem PoolAllocator.totalSize_changes_only_on_growth_witness :
    ∃ (a : PoolAllocator) (m : Machine) (v : PoolView), PoolInv a m v ∧
      a.m_HeadPtr = 0 ∧ m.mallocQueue = [8192] ∧
      ∃ (a' : PoolAllocator) (m' : Machine), a.Allocate m = some (8192, a', m') ∧ 8192 ≠ 0 ∧
        a'.m_Data.TotalSize = a.m_Data.TotalSize + a.m_ChunksPerBlock * a.m_ObjectSize ∧
        m'.reserved = (8192, a.m_ChunksPerBlock * a.m_ObjectSize) :: m.reserved ∧
        IsFreeList m'.mem a'.m_HeadPtr
          ((List.range (a.m_ChunksPerBlock - 1)).map
            (fun i => 8192 + (i + 1) * a.m_ObjectSize)) := by
  obtain ⟨a0, m0, _, inv0, _, _, _, _, _, cq0, _, _⟩ :=
    PoolAllocator.construct_spec "pool" 1 16 (Machine.init [4096, 8192]) 4096 [8192]
      (by decide) (by decide) (by decide) rfl (by decide)
  obtain ⟨a, m, _, inv, _, _, _, hq, _⟩ :=
    PoolAllocator.New_pop inv0 (show slotsFrom 4096 16 1 = 4096 :: [] from rfl) [7]
  have hq' : m.mallocQueue = [8192] := hq.trans cq0
  have h0 : a.m_HeadPtr = 0 := inv.head_eq_zero_iff.2 rfl
  exact ⟨a, m, _, inv, h0, hq',
    (PoolAllocator.totalSize_changes_only_on_growth inv).1 8192 [] h0 hq'⟩

/-- C12, as the code has it: the check of `AllocateBlock` accepts exactly the
element sizes strictly larger than a free-list link (`sizeof(Chunk)`); a size
equal to one pointer is rejected like the smaller ones. With the check passed,
the reservation succeeds exactly when `malloc` does not return `nullptr`. -/
theorem PoolAllocator.AllocateBlock_accepts_iff (a : PoolAllocator) (m : Machine) (cs : Nat) :
    ((a.AllocateBlock m cs).isSome = true ↔
      sizeofChunk < cs ∧ (m.malloc (wmul a.m_ChunksPerBlock cs)).1 ≠ 0) ∧
    (a.AllocateBlock { m with mallocQueue := [SIZE_MOD / 2] } cs = none ↔ cs ≤ sizeofChunk) := by
  refine ⟨PoolAllocator.AllocateBlock_isSome_iff a m cs, ?_⟩
  have h := PoolAllocator.AllocateBlock_isSome_iff a { m with mallocQueue := [SIZE_MOD / 2] } cs
  have hm : ({ m with mallocQueue := [SIZE_MOD / 2] } : Machine).malloc
      (wmul a.m_ChunksPerBlock cs) = (SIZE_MOD / 2, _) := rfl
  have hne : SIZE_MOD / 2 ≠ 0 := by rw [SIZE_MOD_eq]; omega
  rw [hm] at h
  constructor
  · intro hn
    rw [hn] at h
    by_contra hc
    exact absurd (h.2 ⟨by omega, hne⟩) (by simp)
  · intro hle
    cases hr : a.AllocateBlock { m with mallocQueue := [SIZE_MOD / 2] } cs with
    | none => rfl
    | some r =>
      rw [hr] at h
      have := (h.1 rfl).1
      omega

/-- C12 as stated fails: an element of exactly one pointer (`8 = sizeof(Chunk)`) is
at least the size of a link, yet the check rejects it, in `AllocateBlock` and so
in the constructor, although `malloc` has a block to hand out. -/
theorem PoolAllocator.AllocateBlock_rejects_pointer_sized :
    sizeofChunk ≤ 8 ∧
    PoolAllocator.AllocateBlock ⟨AllocatorData.mk0 "pool" 0, 4, 8, 0⟩ (Machine.init [4096]) 8
      = none ∧
    PoolAllocator.construct "pool" 4 8 (Machine.init [4096]) = none := by
  refine ⟨by decide, rfl, rfl⟩

/-! ## Construction and destruction -/

theorem operator_GB_one : operator_GB 1 = 2 ^ 30 := by decide

theorem StackAllocator.construct_isSome_iff (name : String) (total : Nat) (m : Machine) :
    (StackAllocator.construct name total m).isSome = true ↔ 0 < total ∧ total < 2 ^ 30 := by
  unfold StackAllocator.construct
  rw [operator_GB_one]
  by_cases h : total < 2 ^ 30 ∧ total > 0
  · rw [if_pos h]
    exact ⟨fun _ => ⟨h.2, h.1⟩, fun _ => rfl⟩
  · rw [if_neg h]
    exact ⟨fun hc => Bool.noConfusion hc, fun hc => absurd ⟨hc.2, hc.1⟩ h⟩

/-- C13: the construction check of the stack allocator accepts `totalSize` exactly
when `0 < totalSize < 1_GB`, the bound being `2 ^ 30 = 1073741824`: `1` and
`2 ^ 30 - 1` are accepted, `0` and `2 ^ 30` are rejected; an accepted allocator has
offset `0` and a record with `TotalSize = totalSize` (and `UsedSize = 0`). -/
theorem StackAllocator.construct_accepts_iff (name : String) (total : Nat) (m : Machine) :
    operator_GB 1 = 2 ^ 30 ∧ (2 : Nat) ^ 30 = 1073741824 ∧
    ((StackAllocator.construct name total m).isSome = true ↔ 0 < total ∧ total < 2 ^ 30) ∧
    (StackAllocator.construct name 1 m).isSome = true ∧
    (StackAllocator.construct name (2 ^ 30 - 1) m).isSome = true ∧
    StackAllocator.construct name 0 m = none ∧
    StackAllocator.construct name (2 ^ 30) m = none ∧
    (∀ s m', StackAllocator.construct name total m = some (s, m') →
      s.m_Offset = 0 ∧ s.m_Data.TotalSize = total ∧ s.m_Data.UsedSize = 0) := by
  refine ⟨operator_GB_one, by norm_num, StackAllocator.construct_isSome_iff name total m,
    (StackAllocator.construct_isSome_iff name 1 m).2 (by norm_num),
    (StackAllocator.construct_isSome_iff name (2 ^ 30 - 1) m).2 (by norm_num), ?_, ?_, ?_⟩
  · cases h : StackAllocator.construct name 0 m with
    | none => rfl
    | some r =>
      have := (StackAllocator.construct_isSome_iff name 0 m).1 (by rw [h]; rfl)
      omega
  · cases h : StackAllocator.construct name (2 ^ 30) m with
    | none => rfl
    | some r =>
      have := (StackAllocator.construct_isSome_iff name (2 ^ 30) m).1 (by rw [h]; rfl)
      omega
  · intro s m' h
    unfold StackAllocator.construct at h
    by_cases hc : total < operator_GB 1 ∧ total > 0
    · simp only [hc, and_self, if_true, Option.some.injEq, Prod.mk.injEq] at h
      rw [← h.1]
      exact ⟨rfl, rfl, rfl⟩
    · simp only [hc, if_false] at h
      exact Option.noConfusion h

theorem StackAllocator.construct_accepts_iff_witness :
    ∃ (s : StackAllocator) (m' : Machine),
      StackAllocator.construct "stack" 1024 (Machine.init [4096]) = some (s, m') ∧
      s.m_Offset = 0 ∧ s.m_Data.TotalSize = 1024 ∧ s.m_Data.UsedSize = 0 :=
  ⟨_, _, rfl,
    (StackAllocator.construct_accepts_iff "stack" 1024 (Machine.init [4096])).2.2.2.2.2.2.2
      _ _ rfl⟩

/-- C14 (the code departs from it): constructing a stack allocator of 1024 bytes
reserves the region `(4096, 1024)` from `malloc`, yet `m_TotalAllocatedSize` stays
`0`: the constructor does not call `UpdateTotalSize`, which the pool does for
each of its blocks (here one block of `2 * 16` bytes, counted as `32`). -/
theorem StackAllocator.construct_leaves_total_allocated :
    (StackAllocator.construct "stack" 1024 (Machine.init [4096])).map
      (fun r => (r.2.reserved, r.2.m_TotalAllocatedSize)) = some ([(4096, 1024)], 0) ∧
    (PoolAllocator.construct "pool" 2 16 (Machine.init [4096])).map
      (fun r => (r.2.reserved, r.2.m_TotalAllocatedSize)) = some ([(4096, 32)], 32) := by
  refine ⟨by decide, by decide⟩

/-- C15 (the code departs from it): the destructor unregisters the record but
passes only `m_HeadPtr` to `free`. After one `New` on a pool of one block of two
chunks at `4096`, it releases `4112`, a slot inside the block, and never
the block base `4096`; after two `New` on a pool of two blocks of one chunk
(`4096`, `8192`), the head is `nullptr` and it releases nothing. -/
theorem PoolAllocator.destroy_releases_head_only :
    ((PoolAllocator.construct "pool" 2 16 (Machine.init [4096])).bind (fun r =>
      (r.1.New r.2 [7]).map (fun q =>
        ((q.2.1.destroy q.2.2).freed, (q.2.1.destroy q.2.2).reserved.map Prod.fst,
          (q.2.1.destroy q.2.2).m_Allocators)))) = some ([4112], [4096], []) ∧
    ((PoolAllocator.construct "pool" 1 16 (Machine.init [4096, 8192])).bind (fun r =>
      (r.1.newAll [[7], [8]] r.2).map (fun q =>
        ((q.2.1.destroy q.2.2).freed, (q.2.1.destroy q.2.2).reserved.map Prod.fst,
          (q.2.1.destroy q.2.2).m_Allocators)))) = some ([], [8192, 4096], []) := by
  refine ⟨by decide, by decide⟩

/-! ## Double deallocation -/

theorem wsub_wsub_same (u sz : Nat) : wsub (wsub u sz) sz = wsub u (2 * sz) := by
  unfold wsub
  rw [SIZE_MOD_eq]
  omega

/-- With the head at `p` and the link of `p` pointing to `p`, every run of
`Allocate` calls returns `p` and changes neither the head, nor the memory, nor
`TotalSize`. -/
theorem PoolAllocator.allocateN_cycle (n : Nat) :
    ∀ (a : PoolAllocator) (m : Machine) (p : Nat), p ≠ 0 → a.m_HeadPtr = p →
      readPtr m.mem p = p →
      ∃ a' : PoolAllocator, PoolAllocator.allocateN n a m = some (List.replicate n p, a', m) ∧
        a'.m_HeadPtr = p ∧ a'.m_Data.TotalSize = a.m_Data.TotalSize := by
  induction n with
  | zero =>
    intro a m p _ hh _
    exact ⟨a, rfl, hh, rfl⟩
  | succ n ih =>
    intro a m p hp hh hr
    obtain ⟨a1, h1, h2, h3, _, _, _⟩ := PoolAllocator.Allocate_of_head_ne m (by rw [hh]; exact hp)
    rw [hh] at h1 h3
    obtain ⟨a2, g1, g2, g3⟩ := ih a1 m p hp (h3.trans hr) hr
    refine ⟨a2, ?_, g2, g3.trans h2⟩
    rw [PoolAllocator.allocateN, h1]
    dsimp only
    rw [g1]
    rfl

/-- C17: for every pool state and every address `p` (not null, inside the address
space), two calls of `Deallocate(p)` in a row leave the head at `p` and the link
of `p` pointing to `p`; every following `Allocate` returns `p`, keeps the head at
`p`, touches no memory and reserves no block; `UsedSize` has been decremented by
`2 * sizeof(T)` (in `Size` arithmetic, exactly when it was at least that much). -/
theorem PoolAllocator.double_Deallocate_cycle (a : PoolAllocator) (m : Machine) (p n : Nat)
    (hp0 : p ≠ 0) (hp : p < SIZE_MOD) :
    ∃ (a1 : PoolAllocator) (m1 : Machine) (a2 : PoolAllocator) (m2 : Machine)
      (a3 : PoolAllocator),
      a.Deallocate m p = some (a1, m1) ∧ a1.Deallocate m1 p = some (a2, m2) ∧
      a2.m_HeadPtr = p ∧ readPtr m2.mem p = p ∧
      a2.m_Data.UsedSize = wsub a.m_Data.UsedSize (2 * a.m_ObjectSize) ∧
      (2 * a.m_ObjectSize ≤ a.m_Data.UsedSize → a.m_Data.UsedSize < SIZE_MOD →
        a2.m_Data.UsedSize = a.m_Data.UsedSize - 2 * a.m_ObjectSize) ∧
      PoolAllocator.allocateN n a2 m2 = some (List.replicate n p, a3, m2) ∧
      a3.m_HeadPtr = p ∧ a3.m_Data.TotalSize = a.m_Data.TotalSize ∧
      m2.reserved = m.reserved ∧ m2.mallocQueue = m.mallocQueue := by
  have h1 : a.Deallocate m p = some
      ({ a with
          m_HeadPtr := p
          m_Data := { a.m_Data with UsedSize := wsub a.m_Data.UsedSize a.m_ObjectSize } },
        { m with mem := writePtr m.mem p a.m_HeadPtr }) := by
    unfold PoolAllocator.Deallocate
    rw [if_neg hp0]
  obtain ⟨a1, m1, e1⟩ : ∃ a1 m1, a.Deallocate m p = some (a1, m1) := ⟨_, _, h1⟩
  obtain ⟨_, d2, d3, d4, d5, d6, d7, d8, d9⟩ := PoolAllocator.Deallocate_some e1
  have h2 : a1.Deallocate m1 p = some
      ({ a1 with
          m_HeadPtr := p
          m_Data := { a1.m_Data with UsedSize := wsub a1.m_Data.UsedSize a1.m_ObjectSize } },
        { m1 with mem := writePtr m1.mem p a1.m_HeadPtr }) := by
    unfold PoolAllocator.Deallocate
    rw [if_neg hp0]
  obtain ⟨a2, m2, e2⟩ : ∃ a2 m2, a1.Deallocate m1 p = some (a2, m2) := ⟨_, _, h2⟩
  obtain ⟨_, f2, f3, f4, f5, f6, f7, f8, f9⟩ := PoolAllocator.Deallocate_some e2
  have hlink : readPtr m2.mem p = p := by
    rw [f3, d2]
    exact readPtr_writePtr_same _ _ _ hp
  have hused : a2.m_Data.UsedSize = wsub a.m_Data.UsedSize (2 * a.m_ObjectSize) := by
    rw [f5, d5, d7, wsub_wsub_same]
  obtain ⟨a3, g1, g2, g3⟩ := PoolAllocator.allocateN_cycle n a2 m2 p hp0 f2 hlink
  refine ⟨a1, m1, a2, m2, a3, e1, e2, f2, hlink, hused, ?_, g1, g2,
    g3.trans (f4.trans d4), f8.trans d8, f9.trans d9⟩
  intro hle hlt
  rw [hused]
  exact wsub_eq_of_le hle hlt

theorem PoolAllocator.double_Deallocate_cycle_witness :
    ∃ (a1 : PoolAllocator) (m1 : Machine) (a2 : PoolAllocator) (m2 : Machine)
      (a3 : PoolAllocator),
      PoolAllocator.Deallocate ⟨⟨"pool", 64, 32⟩, 4, 16, 4128⟩ (Machine.init []) 4112
        = some (a1, m1) ∧
      a1.Deallocate m1 4112 = some (a2, m2) ∧
      a2.m_HeadPtr = 4112 ∧ readPtr m2.mem 4112 = 4112 ∧
      a2.m_Data.UsedSize = 32 - 2 * 16 ∧
      PoolAllocator.allocateN 3 a2 m2 = some (List.replicate 3 4112, a3, m2) ∧
      a3.m_HeadPtr = 4112 ∧ a3.m_Data.TotalSize = 64 := by
  obtain ⟨a1, m1, a2, m2, a3, h1, h2, h3, h4, _, h6, h7, h8, h9, _, _⟩ :=
    PoolAllocator.double_Deallocate_cycle ⟨⟨"pool", 64, 32⟩, 4, 16, 4128⟩ (Machine.init [])
      4112 3 (by decide) (by decide)
  exact ⟨a1, m1, a2, m2, a3, h1, h2, h3, h4, h6 (by decide) (by decide), h7, h8, h9⟩

/-! ## Reachable pool states -/

theorem Machine.malloc_nil {m : Machine} (h : m.mallocQueue = []) (size : Nat) :
    (m.malloc size).1 = 0 := by
  unfold Machine.malloc
  rw [h]

theorem PoolAllocator.AllocateBlock_queue {a a1 : PoolAllocator} {m m1 : Machine} {cs bb : Nat}
    (h : a.AllocateBlock m cs = some (bb, a1, m1)) :
    sizeofChunk < cs ∧ ∃ rest, m.mallocQueue = bb :: rest := by
  have h1 := (PoolAllocator.AllocateBlock_isSome_iff a m cs).1 (by rw [h]; rfl)
  refine ⟨h1.1, ?_⟩
  cases hq : m.mallocQueue with
  | nil => exact absurd (Machine.malloc_nil hq _) h1.2
  | cons b rest =>
    refine ⟨rest, ?_⟩
    unfold PoolAllocator.AllocateBlock at h
    rw [if_pos h1.1, if_neg h1.2] at h
    simp only [Option.some.injEq, Prod.mk.injEq] at h
    have hb : (m.malloc (wmul a.m_ChunksPerBlock cs)).1 = b := by
      unfold Machine.malloc
      rw [hq]
    rw [← h.1, hb]

theorem PoolAllocator.construct_some {name : String} {k sz : Nat} {m0 m : Machine}
    {a : PoolAllocator} (h : PoolAllocator.construct name k sz m0 = some (a, m)) :
    0 < k ∧ sizeofChunk < sz ∧ ∃ b rest, m0.mallocQueue = b :: rest := by
  unfold PoolAllocator.construct at h
  by_cases hk : k > 0
  · rw [if_pos hk] at h
    dsimp only at h
    cases hb : PoolAllocator.AllocateBlock
        { m_Data := AllocatorData.mk0 name 0, m_ChunksPerBlock := k, m_ObjectSize := sz,
          m_HeadPtr := 0 } m0 sz with
    | none => rw [hb] at h; exact Option.noConfusion h
    | some r =>
      obtain ⟨bb, a1, m1⟩ := r
      obtain ⟨h1, rest, h2⟩ := PoolAllocator.AllocateBlock_queue hb
      exact ⟨hk, h1, bb, rest, h2⟩
  · rw [if_neg hk] at h
    exact Option.noConfusion h

theorem PoolAllocator.Allocate_queue {a a' : PoolAllocator} {m m' : Machine} {p : Nat}
    (h : a.Allocate m = some (p, a', m')) (h0 : a.m_HeadPtr = 0) :
    ∃ b rest, m.mallocQueue = b :: rest := by
  unfold PoolAllocator.Allocate at h
  rw [if_pos h0] at h
  cases hb : a.AllocateBlock m a.m_ObjectSize with
  | none => rw [hb] at h; exact Option.noConfusion h
  | some r =>
    obtain ⟨bb, a1, m1⟩ := r
    obtain ⟨_, rest, h2⟩ := PoolAllocator.AllocateBlock_queue hb
    exact ⟨bb, rest, h2⟩

theorem PoolAllocator.New_some {a a' : PoolAllocator} {m m' : Machine} {p : Nat}
    {obj : List Nat} (h : a.New m obj = some (p, a', m')) :
    ∃ m1 : Machine, a.Allocate m = some (p, a', m1) ∧
      m' = { m1 with mem := writeBytes m1.mem p (obj.take a'.m_ObjectSize) } := by
  unfold PoolAllocator.New at h
  cases hA : a.Allocate m with
  | none => rw [hA] at h; exact Option.noConfusion h
  | some r =>
    obtain ⟨p1, a1, m1⟩ := r
    rw [hA] at h
    simp only [Option.some.injEq, Prod.mk.injEq] at h
    obtain ⟨e1, e2, e3⟩ := h
    subst e1 e2
    exact ⟨m1, rfl, e3.symm⟩

/-- A store anywhere inside a live slot leaves the invariant in place. -/
theorem PoolInv.store_at {a : PoolAllocator} {m : Machine} {v : PoolView} (h : PoolInv a m v)
    {p : Nat} (hp : p ∈ v.live) (off : Nat) (bs : List Nat)
    (hbs : off + bs.length ≤ a.m_ObjectSize) :
    PoolInv a { m with mem := writeBytes m.mem (p + off) bs } v := by
  refine ⟨h.chunks_pos, h.chunks_int, h.size_ok, h.blocks_ok, ?_, h.slots, h.used, h.total⟩
  apply IsFreeList_congr m.mem _ _ _ h.free_list
  intro x hx
  apply readPtr_congr
  intro y hy1 hy2
  apply writeBytes_outside
  have hs := h.size_ok
  simp only [sizeofChunk] at hs hy2
  rcases h.free_sep_live hx hp with h1 | h1 <;> omega

theorem PoolInvAt.allocate {k sz : Nat} {m0 : Machine} {a a' : PoolAllocator} {m m' : Machine}
    {live : List Nat} {p : Nat} (h : PoolInvAt k sz m0 a m live)
    (hA : a.Allocate m = some (p, a', m')) : PoolInvAt k sz m0 a' m' (p :: live) := by
  obtain ⟨v, inv, hl, ck, cs, hr⟩ := h
  cases hv : v.free with
  | cons x fl =>
    obtain ⟨a1, h1, h2, h3, h4, _⟩ := PoolAllocator.Allocate_pop inv hv
    rw [h1] at hA
    simp only [Option.some.injEq, Prod.mk.injEq] at hA
    obtain ⟨e1, e2, e3⟩ := hA
    subst e1 e2 e3
    exact ⟨_, h2, by rw [← hl], h3.trans ck, h4.trans cs, hr⟩
  | nil =>
    obtain ⟨b, rest, hq⟩ := PoolAllocator.Allocate_queue hA (inv.head_eq_zero_iff.2 hv)
    obtain ⟨a1, m1, h1, h2, h3, h4, _, _, h7, _⟩ := PoolAllocator.Allocate_grow inv hv hq
    rw [h1] at hA
    simp only [Option.some.injEq, Prod.mk.injEq] at hA
    obtain ⟨e1, e2, e3⟩ := hA
    subst e1 e2 e3
    refine ⟨_, h2, by rw [← hl], h3.trans ck, h4.trans cs, ?_⟩
    show m1.reserved = (v.blocks ++ [b]).reverse.map (fun b => (b, k * sz)) ++ m0.reserved
    rw [h7, hr, ck, cs, List.reverse_append]
    rfl

theorem PoolInvAt.deallocate {k sz : Nat} {m0 : Machine} {a a' : PoolAllocator} {m m' : Machine}
    {live : List Nat} {p : Nat} (h : PoolInvAt k sz m0 a m live) (hp : p ∈ live)
    (hD : a.Deallocate m p = some (a', m')) : PoolInvAt k sz m0 a' m' (live.erase p) := by
  obtain ⟨v, inv, hl, ck, cs, hr⟩ := h
  obtain ⟨a1, m1, h1, h2, h3, h4, _, _, h7⟩ := PoolAllocator.Delete_spec inv (by rw [hl]; exact hp)
  have h1' : a.Deallocate m p = some (a1, m1) := h1
  rw [h1'] at hD
  simp only [Option.some.injEq, Prod.mk.injEq] at hD
  obtain ⟨e1, e2⟩ := hD
  subst e1 e2
  exact ⟨_, h2, by rw [← hl], h3.trans ck, h4.trans cs, h7.trans hr⟩

/-- Every state reached under correct use satisfies the pool invariant. -/
theorem PoolAllocator.Reachable.inv {name : String} {k sz : Nat} {m0 : Machine}
    (hint : k ≤ 2 ^ 31) (hq : BlocksOK k sz m0.mallocQueue) {a : PoolAllocator} {m : Machine}
    {live : List Nat}
    (h : PoolAllocator.Reachable name k sz m0 a m live) : PoolInvAt k sz m0 a m live := by
  induction h with
  | construct hc =>
    obtain ⟨hk, hsz, b, rest, hb⟩ := PoolAllocator.construct_some hc
    obtain ⟨a1, m1, h1, h2, h3, h4, _, _, _, _, h9, _⟩ :=
      PoolAllocator.construct_spec name k sz m0 b rest hk hint hsz hb (by rw [← hb]; exact hq)
    rw [h1] at hc
    simp only [Option.some.injEq, Prod.mk.injEq] at hc
    obtain ⟨e1, e2⟩ := hc
    subst e1 e2
    exact ⟨_, h2, rfl, h3, h4, h9⟩
  | allocate _ hA ih => exact ih.allocate hA
  | @new a1 a2 m1' m2' live1 p1 obj _ hN ih =>
    obtain ⟨m1, hA, e⟩ := PoolAllocator.New_some hN
    obtain ⟨v, inv, hl, ck, cs, hr⟩ := ih.allocate hA
    subst e
    have hlen : (obj.take a2.m_ObjectSize).length ≤ a2.m_ObjectSize := by
      rw [List.length_take]; exact Nat.min_le_left _ _
    exact ⟨v, inv.store (by rw [hl]; exact List.mem_cons_self _ _) _ hlen, hl, ck, cs, hr⟩
  | deallocate _ hp hD ih => exact ih.deallocate hp hD
  | delete _ hp hD ih => exact ih.deallocate hp hD
  | store off bs _ hp hlen ih =>
    obtain ⟨v, inv, hl, ck, cs, hr⟩ := ih
    exact ⟨v, inv.store_at (by rw [hl]; exact hp) off bs (by rw [cs]; exact hlen), hl, ck, cs, hr⟩

/-- C16: every state reached under correct use by a pool of at most `2 ^ 31` chunks
in a block, so that the `int` counter of the loop of `AllocateBlock` does not
overflow (from construction, through `Allocate`/`New`, `Deallocate`/`Delete` of
live addresses and stores into live slots, `malloc` handing out valid blocks)
has a free list: a finite chain from
the head ending in the terminal marker, with no slot twice and no live slot; no
slot is live twice; the free and the live slots together are exactly the slots of
the blocks reserved so far; and `UsedSize = (number of live slots) * sizeof(T)`,
which is at most `TotalSize = (number of blocks) * chunksPerBlock * sizeof(T)`. -/
theorem PoolAllocator.reachable_invariant {name : String} {k sz : Nat} {m0 : Machine}
    (hint : k ≤ 2 ^ 31) (hq : BlocksOK k sz m0.mallocQueue) {a : PoolAllocator} {m : Machine}
    {live : List Nat} (h : PoolAllocator.Reachable name k sz m0 a m live) :
    ∃ (fl blocks : List Nat),
      IsFreeList m.mem a.m_HeadPtr fl ∧ fl.Nodup ∧ (∀ x ∈ fl, x ∉ live) ∧ live.Nodup ∧
      (fl ++ live).Perm (allSlots k sz blocks) ∧
      m.reserved = blocks.reverse.map (fun b => (b, k * sz)) ++ m0.reserved ∧
      a.m_Data.UsedSize = live.length * sz ∧
      a.m_Data.TotalSize = blocks.length * (k * sz) ∧
      a.m_Data.UsedSize ≤ a.m_Data.TotalSize := by
  obtain ⟨v, inv, hl, ck, cs, hr⟩ := PoolAllocator.Reachable.inv hint hq h
  have hnd := pairwise_sep_nodup inv.size_pos inv.pairwise
  rw [List.nodup_append] at hnd
  have hcount := inv.count
  have hused := inv.used
  have htotal := inv.total
  have hslots := inv.slots
  rw [hl, ck, cs] at *
  refine ⟨v.free, v.blocks, inv.free_list, hnd.1, ?_, ?_, hslots, hr, hused, htotal, ?_⟩
  · intro x hx hx'
    exact hnd.2.2 hx (by rw [hl]; exact hx')
  · have := hnd.2.1
    rw [hl] at this
    exact this
  · rw [hused, htotal, ← Nat.mul_assoc]
    apply Nat.mul_le_mul_right
    omega

theorem PoolAllocator.reachable_invariant_witness :
    ∃ (a : PoolAllocator) (m : Machine) (p : Nat),
      PoolAllocator.Reachable "pool" 2 16 (Machine.init [4096]) a m [p] ∧
      ∃ (fl blocks : List Nat),
        IsFreeList m.mem a.m_HeadPtr fl ∧ fl.Nodup ∧ (∀ x ∈ fl, x ∉ [p]) ∧ [p].Nodup ∧
        (fl ++ [p]).Perm (allSlots 2 16 blocks) ∧
        m.reserved = blocks.reverse.map (fun b => (b, 2 * 16)) ++ (Machine.init [4096]).reserved ∧
        a.m_Data.UsedSize = [p].length * 16 ∧
        a.m_Data.TotalSize = blocks.length * (2 * 16) ∧
        a.m_Data.UsedSize ≤ a.m_Data.TotalSize := by
  obtain ⟨a0, m0, hc, inv0, _, _, _, _, _, _, _, _⟩ :=
    PoolAllocator.construct_spec "pool" 2 16 (Machine.init [4096]) 4096 []
      (by decide) (by decide) (by decide) rfl (by decide)
  obtain ⟨p, a, m, _, hN, _⟩ := PoolAllocator.New_spec inv0 (by simp [slotsFrom_length]) [7]
  have hr : PoolAllocator.Reachable "pool" 2 16 (Machine.init [4096]) a m [p] :=
    PoolAllocator.Reachable.new [7] (PoolAllocator.Reachable.construct hc) hN
  exact ⟨a, m, p, hr, PoolAllocator.reachable_invariant (by decide) (by decide) hr⟩

/-! ## Stack allocator: runs of allocations -/

/-- The step of `Allocate` that succeeds. -/
theorem StackAllocator.Allocate_of_fits (d : StackDeps) (s : StackAllocator) (mem : Memory)
    (size alignment : Nat)
    (h : ¬ wadd (wadd s.m_Offset (s.paddingFor d alignment)) size > s.m_Data.TotalSize) :
    (s.Allocate d mem size alignment).1
      = some (wadd (wadd s.m_HeadPtr s.m_Offset) (s.paddingFor d alignment)) ∧
    (s.Allocate d mem size alignment).2.1.m_Offset
      = wadd (wadd s.m_Offset (s.paddingFor d alignment)) size ∧
    (s.Allocate d mem size alignment).2.1.m_HeadPtr = s.m_HeadPtr ∧
    (s.Allocate d mem size alignment).2.1.m_Data.TotalSize = s.m_Data.TotalSize := by
  unfold StackAllocator.paddingFor at h
  unfold StackAllocator.Allocate StackAllocator.paddingFor
  simp only [h, if_false]
  exact ⟨trivial, trivial, trivial, trivial⟩

/-- A good run from a state with the offset inside the region: the facts about
every allocation made, in terms of the offsets. -/
theorem StackAllocator.allocateAll_spec (d : StackDeps) (mem : Memory) (base total : Nat)
    (hreg : base + total < SIZE_MOD) (reqs : List (Nat × Nat)) :
    ∀ s : StackAllocator, s.m_HeadPtr = base → s.m_Data.TotalSize = total →
      s.m_Offset ≤ total → StackAllocator.GoodRun d mem reqs s →
      (StackAllocator.allocateAll d mem reqs s).1.length = reqs.length ∧
      s.m_Offset ≤ (StackAllocator.allocateAll d mem reqs s).2.m_Offset ∧
      (StackAllocator.allocateAll d mem reqs s).2.m_Offset ≤ total ∧
      (∀ x ∈ (StackAllocator.allocateAll d mem reqs s).1,
        s.m_Offset ≤ x.offsetBefore ∧
        base + x.offsetBefore + d.sizeofAllocationHeader ≤ x.address ∧
        x.address + x.size ≤ base + (StackAllocator.allocateAll d mem reqs s).2.m_Offset) ∧
      (StackAllocator.allocateAll d mem reqs s).1.Pairwise
        (fun x y => x.address + x.size ≤ base + y.offsetBefore) := by
  induction reqs with
  | nil =>
    intro s _ _ ho _
    exact ⟨rfl, Nat.le_refl _, ho, fun x hx => absurd hx (List.not_mem_nil x), List.Pairwise.nil⟩
  | cons req rest ih =>
    intro s hb ht ho hg
    obtain ⟨size, alignment⟩ := req
    obtain ⟨hne, hpad, hwrap, hrest⟩ := hg
    have hfit : ¬ wadd (wadd s.m_Offset (s.paddingFor d alignment)) size > s.m_Data.TotalSize := by
      intro hgt
      exact hne ((StackAllocator.Allocate_fail_iff d s mem size alignment).2 hgt)
    obtain ⟨h1, h2, h3, h4⟩ := StackAllocator.Allocate_of_fits d s mem size alignment hfit
    have hoff : (s.Allocate d mem size alignment).2.1.m_Offset
        = s.m_Offset + s.paddingFor d alignment + size := by
      rw [h2, wadd_wadd, Nat.mod_eq_of_lt hwrap]
    have hle : s.m_Offset + s.paddingFor d alignment + size ≤ total := by
      rw [wadd_wadd, Nat.mod_eq_of_lt hwrap, ht] at hfit
      omega
    have haddr : wadd (wadd s.m_HeadPtr s.m_Offset) (s.paddingFor d alignment)
        = base + s.m_Offset + s.paddingFor d alignment := by
      rw [wadd_wadd, hb]
      exact Nat.mod_eq_of_lt (by omega)
    obtain ⟨g1, g2, g3, g4, g5⟩ := ih (s.Allocate d mem size alignment).2.1 (h3.trans hb)
      (h4.trans ht) (by rw [hoff]; exact hle) hrest
    have hrun : StackAllocator.allocateAll d mem ((size, alignment) :: rest) s
        = (⟨s.m_Offset, base + s.m_Offset + s.paddingFor d alignment, size⟩ ::
            (StackAllocator.allocateAll d mem rest (s.Allocate d mem size alignment).2.1).1,
           (StackAllocator.allocateAll d mem rest (s.Allocate d mem size alignment).2.1).2) := by
      rw [StackAllocator.allocateAll, h1, haddr]
    rw [hrun]
    rw [hoff] at g2 g4
    dsimp only
    refine ⟨by rw [List.length_cons, g1, List.length_cons], by omega, g3, ?_, ?_⟩
    · intro x hx
      rcases List.mem_cons.1 hx with rfl | hx
      · dsimp only
        exact ⟨Nat.le_refl _, by omega, by omega⟩
      · obtain ⟨k1, k2, k3⟩ := g4 x hx
        exact ⟨by omega, k2, k3⟩
    · rw [List.pairwise_cons]
      refine ⟨?_, g5⟩
      intro y hy
      obtain ⟨k1, _, _⟩ := g4 y hy
      dsimp only
      omega

/-- C18: in a run of successful `Allocate` calls with no `Deallocate` in between,
every padding at least the header size and no sum wrapping (the region ends
before the end of the address space): every returned range `[p, p + size)` lies
in `[base, base + totalSize)`; an earlier range ends at or before the header of a
later one, so the ranges are pairwise disjoint and at non-decreasing addresses;
every header `[p - sizeof(AllocationHeader), p)` starts at or after the offset
before its call and ends inside the region; the offset before every call, and
the offset the run ends with, are at most `totalSize`. -/
theorem StackAllocator.allocateAll_ranges (d : StackDeps) (mem : Memory)
    (reqs : List (Nat × Nat)) (s : StackAllocator)
    (hreg : s.m_HeadPtr + s.m_Data.TotalSize < SIZE_MOD)
    (hg : StackAllocator.GoodRun d mem reqs s) :
    (StackAllocator.allocateAll d mem reqs s).1.length = reqs.length ∧
    (∀ x ∈ (StackAllocator.allocateAll d mem reqs s).1,
      s.m_HeadPtr ≤ x.address ∧ x.address + x.size ≤ s.m_HeadPtr + s.m_Data.TotalSize ∧
      d.sizeofAllocationHeader ≤ x.address ∧
      s.m_HeadPtr + x.offsetBefore ≤ x.address - d.sizeofAllocationHeader ∧
      x.address ≤ s.m_HeadPtr + s.m_Data.TotalSize ∧
      x.offsetBefore ≤ s.m_Data.TotalSize) ∧
    (StackAllocator.allocateAll d mem reqs s).1.Pairwise
      (fun x y => x.address + x.size ≤ y.address - d.sizeofAllocationHeader ∧
        x.address ≤ y.address) ∧
    (reqs ≠ [] → (StackAllocator.allocateAll d mem reqs s).2.m_Offset ≤ s.m_Data.TotalSize) := by
  have ho : reqs ≠ [] → s.m_Offset ≤ s.m_Data.TotalSize := by
    intro hne
    cases reqs with
    | nil => exact absurd rfl hne
    | cons req rest =>
      obtain ⟨size, alignment⟩ := req
      obtain ⟨hn, _, hwrap, _⟩ := hg
      have hfit : ¬ wadd (wadd s.m_Offset (s.paddingFor d alignment)) size
          > s.m_Data.TotalSize := by
        intro hgt
        exact hn ((StackAllocator.Allocate_fail_iff d s mem size alignment).2 hgt)
      rw [wadd_wadd, Nat.mod_eq_of_lt hwrap] at hfit
      omega
  by_cases hne : reqs = []
  · subst hne
    exact ⟨rfl, fun x hx => absurd hx (List.not_mem_nil x), List.Pairwise.nil,
      fun h => absurd rfl h⟩
  · obtain ⟨h1, h2, h3, h4, h5⟩ :=
      StackAllocator.allocateAll_spec d mem s.m_HeadPtr s.m_Data.TotalSize hreg reqs s rfl rfl
        (ho hne) hg
    refine ⟨h1, ?_, ?_, fun _ => h3⟩
    · intro x hx
      obtain ⟨k1, k2, k3⟩ := h4 x hx
      refine ⟨by omega, by omega, by omega, by omega, by omega, by omega⟩
    · have h6 : (StackAllocator.allocateAll d mem reqs s).1.Pairwise (fun x y =>
          (x.address + x.size ≤ s.m_HeadPtr + y.offsetBefore) ∧
          (s.m_HeadPtr + y.offsetBefore + d.sizeofAllocationHeader ≤ y.address)) := by
        rw [List.pairwise_iff_forall_sublist] at h5 ⊢
        intro x y hxy
        exact ⟨h5 hxy, (h4 y (hxy.subset (by simp))).2.1⟩
      exact h6.imp (fun hxy => ⟨by omega, by omega⟩)

theorem StackAllocator.allocateAll_ranges_witness :
    (StackAllocator.allocateAll stdDeps zeroMem [(16, 8), (32, 16)]
      ⟨AllocatorData.mk0 "stack" 1024, 4096, 0⟩).1.map
        (fun x => (x.offsetBefore, x.address, x.size)) = [(0, 4104, 16), (24, 4128, 32)] ∧
    (StackAllocator.allocateAll stdDeps zeroMem [(16, 8), (32, 16)]
      ⟨AllocatorData.mk0 "stack" 1024, 4096, 0⟩).1.Pairwise
      (fun x y => x.address + x.size ≤ y.address - stdDeps.sizeofAllocationHeader ∧
        x.address ≤ y.address) ∧
    (StackAllocator.allocateAll stdDeps zeroMem [(16, 8), (32, 16)]
      ⟨AllocatorData.mk0 "stack" 1024, 4096, 0⟩).2.m_Offset ≤ 1024 :=
  ⟨by decide,
   (StackAllocator.allocateAll_ranges stdDeps zeroMem [(16, 8), (32, 16)]
      ⟨AllocatorData.mk0 "stack" 1024, 4096, 0⟩ (by decide)
      (by
        simp only [StackAllocator.GoodRun]
        decide)).2.2.1,
   (StackAllocator.allocateAll_ranges stdDeps zeroMem [(16, 8), (32, 16)]
      ⟨AllocatorData.mk0 "stack" 1024, 4096, 0⟩ (by decide)
      (by
        simp only [StackAllocator.GoodRun]
        decide)).2.2.2 (by simp)⟩

end QMBT
